import Mathlib

/-!
Verification of the football co-occurrence graph pipeline: a shallow
embedding of `src/python/graph_builder.py` (`FootballGraphBuilder`) and
`src/python/dynamic_score_calculator.py`, with theorems settling the
specification's claims about them.

Python strings are modelled as `String`/`List Char`; the `networkx.Graph`
node and edge dictionaries as insertion-ordered association lists; uncaught
Python exceptions as `Option.none`.
-/

namespace FootballGraphs

/-- Whitespace test used by Python `str.strip` (ASCII fragment; the data
files are processed line by line, so only these four characters occur). -/
def isWS (c : Char) : Bool := c = ' ' || c = '\t' || c = '\n' || c = '\r'

/-- `startsWithL s p` models Python `s.startswith(p)` on character lists. -/
def startsWithL : List Char → List Char → Bool
  | _, [] => true
  | [], _ :: _ => false
  | a :: s, b :: p => a = b && startsWithL s p

/-- Trailing-whitespace removal (second half of Python `str.strip`). -/
def dropTrailWS (s : List Char) : List Char := (s.reverse.dropWhile isWS).reverse

/-- Python `str.strip()` on character lists. -/
def stripChars (s : List Char) : List Char := dropTrailWS (s.dropWhile isWS)

/-- Python `s.split(sep)` for a one-character separator: splits at every
occurrence and keeps empty pieces (`''.split('|') == ['']`). -/
def splitChar (c : Char) : List Char → List (List Char)
  | [] => [[]]
  | a :: rest =>
    let r := splitChar c rest
    if a = c then [] :: r else (a :: r.headD []) :: r.tail

/-- Auxiliary for `pyReplaceDel`, structurally recursive on a fuel that is
initialised to the string length (each step consumes at least one
character, so the fuel never runs out). -/
def replaceDelAux (pat : List Char) : Nat → List Char → List Char
  | _, [] => []
  | 0, s => s
  | fuel + 1, a :: rest =>
    if startsWithL (a :: rest) pat && !pat.isEmpty then
      replaceDelAux pat fuel ((a :: rest).drop pat.length)
    else
      a :: replaceDelAux pat fuel rest

/-- `pyReplaceDel pat s` models Python `s.replace(pat, '')`: every
left-to-right, non-overlapping occurrence of `pat` is deleted. -/
def pyReplaceDel (pat s : List Char) : List Char := replaceDelAux pat s.length s

/-- The decimal digit character for `d` (`0 ≤ d ≤ 9`). -/
def digitToChar (d : Nat) : Char := Char.ofNat (48 + d)

/-- Decimal rendering of a natural number, as produced by Python `str(n)`
or f-string interpolation of a nonnegative int. -/
def natToChars (n : Nat) : List Char :=
  if n = 0 then ['0'] else ((Nat.digits 10 n).map digitToChar).reverse

def natStr (n : Nat) : String := String.mk (natToChars n)

def isDigitCh (c : Char) : Bool := 48 ≤ c.toNat && c.toNat ≤ 57

/-- Value of a big-endian decimal digit string. -/
def digitsVal (cs : List Char) : Nat := cs.foldl (fun a c => a * 10 + (c.toNat - 48)) 0

/-- Python `int(s)` restricted to the unsigned decimal forms that occur in
graph files.  (Python `int` also accepts a sign, and `save_for_java` only
ever writes unsigned digit strings; anything else is a parse failure.) -/
def pyNat (s : List Char) : Option Nat :=
  let t := stripChars s
  if t.isEmpty || !t.all isDigitCh then none else some (digitsVal t)

/-- One parsed match record (the `{'id', 'date', 'opponent', 'players'}`
dict built by `load_data`). -/
structure MatchRec where
  mid : String
  date : String
  opponent : String
  players : List String
deriving DecidableEq

/-- The `networkx.Graph` as used by the sources: nodes carry a `matches`
attribute and edges a `weight` attribute, both kept in first-insertion
order (matching networkx's dict-backed iteration order). -/
structure Graph where
  nodes : List (String × Nat)
  edges : List (String × String × Nat)
deriving DecidableEq

/-- `sameEdge u v e`: the stored edge `e` joins `u` and `v` (undirected
membership test, as in networkx's symmetric adjacency). -/
def sameEdge (u v : String) (e : String × String × Nat) : Bool :=
  (e.1 = u && e.2.1 = v) || (e.1 = v && e.2.1 = u)

/-- Dictionary lookup in the node list (node names are unique in every
graph the sources build, so first match is the match). -/
def lookupMatches : List (String × Nat) → String → Nat
  | [], _ => 0
  | n :: rest, p => if n.1 = p then n.2 else lookupMatches rest p

/-- Adjacency lookup of an edge weight. -/
def lookupWeight (u v : String) : List (String × String × Nat) → Nat
  | [] => 0
  | e :: rest => if sameEdge u v e then e.2.2 else lookupWeight u v rest

namespace Graph

def hasNode (g : Graph) (p : String) : Bool := g.nodes.any (fun n => n.1 = p)

/-- `G.nodes[p]['matches']` (and its `.get('matches', 0)` variant; 0 is
never read off an existing node). -/
def matchesOf (g : Graph) (p : String) : Nat := lookupMatches g.nodes p

def hasEdge (g : Graph) (u v : String) : Bool := g.edges.any (sameEdge u v)

/-- `G[u][v]['weight']` (0 when the edge is absent; the sources only read
weights of edges known to exist). -/
def weightOf (g : Graph) (u v : String) : Nat := lookupWeight u v g.edges

/-- `set(G.nodes())`. -/
def nodeSet (g : Graph) : Finset String := (g.nodes.map Prod.fst).toFinset

/-- Edge identity as Python's `frozenset(edge)`: the unordered endpoint
set (a singleton for a self-loop). -/
def edgeKey (e : String × String × Nat) : Finset String := {e.1, e.2.1}

/-- `set(frozenset(edge) for edge in G.edges())`. -/
def edgeSet (g : Graph) : Finset (Finset String) := (g.edges.map edgeKey).toFinset

/-- Sum of all stored edge weights. -/
def totalWeight (g : Graph) : Nat := (g.edges.map (fun e => e.2.2)).sum

/-- networkx `G.degree(p)` on an undirected graph: each incident edge
counts once, a self-loop twice. -/
def degree (g : Graph) (p : String) : Nat :=
  (g.edges.map (fun e =>
    if e.1 = p ∧ e.2.1 = p then 2 else if e.1 = p ∨ e.2.1 = p then 1 else 0)).sum

end Graph

/-- `if not has_node(p): add_node(p, matches=0)` followed by
`nodes[p]['matches'] += 1`, acting on the node list. -/
def bumpNode (p : String) : List (String × Nat) → List (String × Nat)
  | [] => [(p, 1)]
  | n :: ns => if n.1 = p then (n.1, n.2 + 1) :: ns else n :: bumpNode p ns

/-- `if has_edge(u,v): G[u][v]['weight'] += 1 else add_edge(u, v, weight=1)`,
acting on the edge list. -/
def bumpEdge (u v : String) : List (String × String × Nat) → List (String × String × Nat)
  | [] => [(u, v, 1)]
  | e :: es => if sameEdge u v e then (e.1, e.2.1, e.2.2 + 1) :: es else e :: bumpEdge u v es

/-- The node loop of `build_graph` for one lineup. -/
def addPlayers (g : Graph) (players : List String) : Graph :=
  players.foldl (fun g p => { g with nodes := bumpNode p g.nodes }) g

/-- The nested pair loop of `build_graph` for one lineup
(`for i, player1 in enumerate(players): for player2 in players[i+1:]`). -/
def addLineupEdges (g : Graph) : List String → Graph
  | [] => g
  | p :: rest =>
    addLineupEdges (rest.foldl (fun g q => { g with edges := bumpEdge p q g.edges }) g) rest

/-- Processing of one match record inside `build_graph`. -/
def buildStep (g : Graph) (m : MatchRec) : Graph :=
  addLineupEdges (addPlayers g m.players) m.players

/-- `FootballGraphBuilder.build_graph` as a fold over the loaded records,
starting from the empty `nx.Graph()`. -/
def build_graph (ms : List MatchRec) : Graph := ms.foldl buildStep ⟨[], []⟩

/-- Parser state of `load_data`: the records already appended, the current
match dict, and how many times that (mutable, aliased) dict has been
appended to `self.matches` — every appended alias shows the dict's final
`players` value. -/
structure LoadState where
  done : List MatchRec
  cur : Option MatchRec
  copies : Nat
deriving DecidableEq

/-- The appended aliases of the current dict, realised with its final
field values. -/
def LoadState.flushed (st : LoadState) : List MatchRec :=
  st.done ++ (match st.cur with
    | some c => List.replicate st.copies c
    | none => [])

/-- Parse of a stripped `MATCH:` line into the new current dict. -/
def parseMatchLine (line : List Char) : MatchRec :=
  let parts := splitChar '|' line
  { mid := String.mk (stripChars (pyReplaceDel "MATCH:".data (parts.headD [])))
    date := if 1 < parts.length then String.mk (stripChars (parts.getD 1 [])) else ""
    opponent := if 2 < parts.length then String.mk (stripChars (parts.getD 2 [])) else ""
    players := [] }

/-- Parse of a stripped `PLAYERS:` line into the lineup list. -/
def parsePlayers (line : List Char) : List String :=
  (splitChar ',' (stripChars (pyReplaceDel "PLAYERS:".data line))).map
    (fun cs => String.mk (stripChars cs))

/-- One iteration of the `load_data` line loop. -/
def loadStep (st : LoadState) (raw : String) : LoadState :=
  let line := stripChars raw.data
  if startsWithL line "#".data || line.isEmpty then st
  else if startsWithL line "MATCH:".data then
    { done := st.flushed, cur := some (parseMatchLine line), copies := 0 }
  else if startsWithL line "PLAYERS:".data then
    match st.cur with
    | some c => { st with cur := some { c with players := parsePlayers line }, copies := st.copies + 1 }
    | none => st
  else st

/-- `FootballGraphBuilder.load_data`, over the file's lines. -/
def load_data (lines : List String) : List MatchRec :=
  (lines.foldl loadStep ⟨[], none, 0⟩).flushed

/-- The per-edge output line of `save_for_java`
(`f"EDGE {u} | {v} | {weight} | {matches_u} | {matches_v}"`). -/
def edgeLineFor (g : Graph) (e : String × String × Nat) : String :=
  "EDGE " ++ e.1 ++ " | " ++ e.2.1 ++ " | " ++ natStr e.2.2 ++ " | " ++
    natStr (g.matchesOf e.1) ++ " | " ++ natStr (g.matchesOf e.2.1)

/-- `FootballGraphBuilder.save_for_java`: the written file, as its lines
(the two `"...\n\n"` writes each end with an empty line). -/
def save_for_java (g : Graph) : List String :=
  ["# Graph for Java/GraphStream",
   "# Nodes: " ++ natStr g.nodes.length,
   "# Edges: " ++ natStr g.edges.length,
   "",
   "# Format: EDGE player1 | player2 | weight | matches1 | matches2",
   ""] ++
  g.edges.map (edgeLineFor g)

/-- `if p not in G: G.add_node(p, matches=m)`. -/
def addNodeIfAbsent (g : Graph) (p : String) (m : Nat) : Graph :=
  if g.hasNode p then g else { g with nodes := g.nodes ++ [(p, m)] }

/-- networkx `G.add_edge(u, v, weight=w)`: overwrites the weight of an
existing edge, otherwise appends a new one.  (In `load_graph` both
endpoints are added as nodes immediately before, so the implicit node
insertion `add_edge` can perform never triggers.) -/
def setEdge (u v : String) (w : Nat) : List (String × String × Nat) → List (String × String × Nat)
  | [] => [(u, v, w)]
  | e :: es => if sameEdge u v e then (e.1, e.2.1, w) :: es else e :: setEdge u v w es

/-- One iteration of the `load_graph` line loop; `none` models the
uncaught `ValueError` that `int()` raises on a malformed field. -/
def loadGraphStep (g : Graph) (raw : String) : Option Graph :=
  let line := stripChars raw.data
  if line.isEmpty || !startsWithL line "EDGE".data then some g
  else
    let parts := splitChar '|' (line.drop 5)
    if parts.length < 5 then some g
    else
      match pyNat (parts.getD 2 []), pyNat (parts.getD 3 []), pyNat (parts.getD 4 []) with
      | some w, some m1, some m2 =>
        let p1 := String.mk (stripChars (parts.getD 0 []))
        let p2 := String.mk (stripChars (parts.getD 1 []))
        let g1 := addNodeIfAbsent g p1 m1
        let g2 := addNodeIfAbsent g1 p2 m2
        some { g2 with edges := setEdge p1 p2 w g2.edges }
      | _, _, _ => none

def loadGraphAux (g : Graph) : List String → Option Graph
  | [] => some g
  | l :: ls =>
    match loadGraphStep g l with
    | some g' => loadGraphAux g' ls
    | none => none

/-- `load_graph`, over the file's lines, starting from the empty graph. -/
def load_graph (lines : List String) : Option Graph := loadGraphAux ⟨[], []⟩ lines

/-- `calculate_v_dynamic_score` (exact rational value of the float
division `len(symmetric_diff) / len(union)`). -/
def calculate_v_dynamic_score (gt gt1 : Graph) : ℚ :=
  let sd := symmDiff gt.nodeSet gt1.nodeSet
  let un := gt.nodeSet ∪ gt1.nodeSet
  if un.card = 0 then 0 else (sd.card : ℚ) / (un.card : ℚ)

/-- `calculate_e_dynamic_score`: the same formula over the frozenset edge
sets. -/
def calculate_e_dynamic_score (gt gt1 : Graph) : ℚ :=
  let sd := symmDiff gt.edgeSet gt1.edgeSet
  let un := gt.edgeSet ∪ gt1.edgeSet
  if un.card = 0 then 0 else (sd.card : ℚ) / (un.card : ℚ)

/-- Stable descending insertion by a numeric key: together with `sortDesc`
this models Python's stable `list.sort(key=..., reverse=True)`. -/
def insertDesc {α : Type} (key : α → Nat) (x : α) : List α → List α
  | [] => [x]
  | y :: ys => if key y < key x then x :: y :: ys else y :: insertDesc key x ys

def sortDesc {α : Type} (key : α → Nat) (l : List α) : List α := l.foldr (insertDesc key) []

/-- First-occurrence deduplication: a computable stand-in for Python's
(order-unspecified) iteration over a set built from the given list.  No
claim depends on which order a set iterates in. -/
def dedupNames : List String → List String
  | [] => []
  | p :: ps => p :: (dedupNames ps).filter (fun q => q ≠ p)

/-- First-occurrence deduplication of stored edges by their unordered
endpoint key: iteration over a Python set of frozensets. -/
def dedupKeys : List (String × String × Nat) → List (String × String × Nat)
  | [] => []
  | e :: es => e :: (dedupKeys es).filter (fun f => Graph.edgeKey f ≠ Graph.edgeKey e)

/-- `get_player_changes`.  `list(V_t - V_t1)` iterates a set in
unspecified order; first-insertion order plays that role here. -/
def get_player_changes (gt gt1 : Graph) : List (String × Nat) × List (String × Nat) :=
  let left := ((dedupNames (gt.nodes.map Prod.fst)).filter
    (fun p => ¬ p ∈ gt1.nodeSet)).map (fun p => (p, gt.matchesOf p))
  let joined := ((dedupNames (gt1.nodes.map Prod.fst)).filter
    (fun p => ¬ p ∈ gt.nodeSet)).map (fun p => (p, gt1.matchesOf p))
  (sortDesc (fun x => x.2) left, sortDesc (fun x => x.2) joined)

/-- `p1, p2 = list(edge); weight = G[p1][p2]['weight']`: raises
(`ValueError`, modelled as `none`) when the frozenset is a singleton
(self-loop); otherwise Python yields the two endpoints in unspecified
order — the stored orientation is used here, and no claim depends on the
orientation of an entry. -/
def unpackEdge (g : Graph) (e : String × String × Nat) : Option (String × String × Nat) :=
  if e.1 = e.2.1 then none else some (e.1, e.2.1, g.weightOf e.1 e.2.1)

/-- The per-edge loop bodies of `get_edge_changes`: all succeed, or the
first failure aborts the call. -/
def mapOpt {α β : Type} (f : α → Option β) : List α → Option (List β)
  | [] => some []
  | a :: rest =>
    match f a, mapOpt f rest with
    | some b, some bs => some (b :: bs)
    | _, _ => none

/-- `get_edge_changes`; `none` models the uncaught `ValueError` from
unpacking a singleton frozenset (self-loop). -/
def get_edge_changes (gt gt1 : Graph) :
    Option (List (String × String × Nat) × List (String × String × Nat)) :=
  match mapOpt (unpackEdge gt)
          ((dedupKeys gt.edges).filter (fun e => ¬ Graph.edgeKey e ∈ gt1.edgeSet)),
        mapOpt (unpackEdge gt1)
          ((dedupKeys gt1.edges).filter (fun e => ¬ Graph.edgeKey e ∈ gt.edgeSet)) with
  | some lost, some gained =>
    some (sortDesc (fun e => e.2.2) lost, sortDesc (fun e => e.2.2) gained)
  | _, _ => none

/-- `round(x, 3)` modelled as exact half-even rounding to three decimal
places (binary floating-point representation error is ignored; no claim
concerns the rounded presentation fields). -/
def roundHalfEven (x : ℚ) : ℤ :=
  let f := ⌊x⌋
  if x - f < 1 / 2 then f
  else if 1 / 2 < x - f then f + 1
  else if f % 2 = 0 then f else f + 1

def pyRound3 (x : ℚ) : ℚ := (roundHalfEven (x * 1000) : ℚ) / 1000

/-- The comparison record built by `process_season_pair` (entries keep
tuple form; the JSON field names are fixed at the construction site). -/
structure SeasonComparison where
  club : String
  season_from : String
  season_to : String
  v_score : ℚ
  e_score : ℚ
  total_players_t : Nat
  total_players_t1 : Nat
  total_edges_t : Nat
  total_edges_t1 : Nat
  players_left : List (String × Nat)
  players_joined : List (String × Nat)
  edges_lost : List (String × String × Nat)
  edges_gained : List (String × String × Nat)
deriving DecidableEq

/-- `process_season_pair` on two already-loaded graphs (its file loading
is `load_graph`, modelled separately). -/
def process_season_pair (club seasonT seasonT1 : String) (gt gt1 : Graph) :
    Option SeasonComparison :=
  match get_edge_changes gt gt1 with
  | none => none
  | some (lost, gained) =>
    let pc := get_player_changes gt gt1
    some
      { club := club
        season_from := seasonT
        season_to := seasonT1
        v_score := pyRound3 (calculate_v_dynamic_score gt gt1)
        e_score := pyRound3 (calculate_e_dynamic_score gt gt1)
        total_players_t := gt.nodes.length
        total_players_t1 := gt1.nodes.length
        total_edges_t := gt.edges.length
        total_edges_t1 := gt1.edges.length
        players_left := pc.1.take 10
        players_joined := pc.2.take 10
        edges_lost := lost.take 10
        edges_gained := gained.take 10 }

/-- `networkx.degree_centrality` as called by `calculate_statistics`
(modelled from the imported networkx library source: `{n: 1 for n in G}`
when `len(G) <= 1`, else `{n: d / (len(G) - 1) for n, d in G.degree()}`). -/
def degree_centrality (g : Graph) : List (String × ℚ) :=
  if g.nodes.length ≤ 1 then g.nodes.map (fun n => (n.1, 1))
  else g.nodes.map (fun n => (n.1, (g.degree n.1 : ℚ) / ((g.nodes.length : ℚ) - 1)))

/-! ### Basic lemmas about the embedded operations -/

theorem symmDiff_card_le_union_card {α : Type} [DecidableEq α] (s t : Finset α) :
    (symmDiff s t).card ≤ (s ∪ t).card := by
  refine Finset.card_le_card ?_
  have h : symmDiff s t ≤ s ⊔ t := symmDiff_le_sup
  simpa [Finset.sup_eq_union] using h

/-- Common shape of the two score computations. -/
theorem score_formula_and_range {α : Type} [DecidableEq α] (s t : Finset α) :
    (if (s ∪ t).card = 0 then (0 : ℚ) else ((symmDiff s t).card : ℚ) / ((s ∪ t).card : ℚ)) =
      (if s ∪ t = ∅ then (0 : ℚ) else ((symmDiff s t).card : ℚ) / ((s ∪ t).card : ℚ)) ∧
    0 ≤ (if (s ∪ t).card = 0 then (0 : ℚ) else ((symmDiff s t).card : ℚ) / ((s ∪ t).card : ℚ)) ∧
    (if (s ∪ t).card = 0 then (0 : ℚ) else ((symmDiff s t).card : ℚ) / ((s ∪ t).card : ℚ)) ≤ 1 := by
  refine ⟨by simp [Finset.card_eq_zero], ?_, ?_⟩
  · split
    · exact le_refl 0
    · positivity
  · split
    · exact zero_le_one
    · rename_i h
      have hpos : (0 : ℚ) < ((s ∪ t).card : ℚ) := by
        exact_mod_cast Nat.pos_of_ne_zero h
      rw [div_le_one hpos]
      exact_mod_cast symmDiff_card_le_union_card s t

theorem pair_eq_pair_iff_str {a b c d : String} :
    ({a, b} : Finset String) = {c, d} ↔ a = c ∧ b = d ∨ a = d ∧ b = c := by
  rw [← Finset.coe_inj]
  push_cast
  exact Set.pair_eq_pair_iff

theorem sameEdge_iff_key (u v : String) (e : String × String × Nat) :
    sameEdge u v e = true ↔ Graph.edgeKey e = {u, v} := by
  simp only [sameEdge, Graph.edgeKey, Bool.or_eq_true, Bool.and_eq_true, decide_eq_true_eq]
  exact pair_eq_pair_iff_str.symm

theorem key_card_two_iff (a b : String) :
    ({a, b} : Finset String).card = 2 ↔ a ≠ b := by
  constructor
  · intro h hab
    subst hab
    simp at h
  · exact Finset.card_pair

/-! #### Stable descending sort -/

theorem insertDesc_perm {α : Type} (key : α → Nat) (x : α) (l : List α) :
    List.Perm (insertDesc key x l) (x :: l) := by
  induction l with
  | nil => simp [insertDesc]
  | cons y ys ih =>
    rw [insertDesc]
    split
    · exact List.Perm.refl _
    · exact (ih.cons y).trans (List.Perm.swap x y ys)

theorem sortDesc_perm {α : Type} (key : α → Nat) (l : List α) :
    List.Perm (sortDesc key l) l := by
  induction l with
  | nil => simp [sortDesc]
  | cons x xs ih =>
    have : sortDesc key (x :: xs) = insertDesc key x (sortDesc key xs) := rfl
    rw [this]
    exact (insertDesc_perm key x (sortDesc key xs)).trans (ih.cons x)

theorem mem_insertDesc {α : Type} (key : α → Nat) (x : α) (l : List α) (z : α) :
    z ∈ insertDesc key x l ↔ z = x ∨ z ∈ l := by
  rw [List.Perm.mem_iff (insertDesc_perm key x l)]
  simp

theorem insertDesc_sorted {α : Type} (key : α → Nat) (x : α) (l : List α)
    (h : List.Pairwise (fun a b => key b ≤ key a) l) :
    List.Pairwise (fun a b => key b ≤ key a) (insertDesc key x l) := by
  induction l with
  | nil => simp [insertDesc]
  | cons y ys ih =>
    rw [insertDesc]
    rcases List.pairwise_cons.mp h with ⟨hy, hys⟩
    split
    · rename_i hlt
      refine List.pairwise_cons.mpr ⟨?_, h⟩
      intro z hz
      rcases List.mem_cons.mp hz with rfl | hz
      · exact le_of_lt hlt
      · exact le_trans (hy z hz) (le_of_lt hlt)
    · rename_i hge
      refine List.pairwise_cons.mpr ⟨?_, ih hys⟩
      intro z hz
      rcases (mem_insertDesc key x ys z).mp hz with rfl | hz
      · exact le_of_not_lt hge
      · exact hy z hz

theorem sortDesc_sorted {α : Type} (key : α → Nat) (l : List α) :
    List.Pairwise (fun a b => key b ≤ key a) (sortDesc key l) := by
  induction l with
  | nil => simp [sortDesc]
  | cons x xs ih => exact insertDesc_sorted key x (sortDesc key xs) ih

/-! ### C1: the two dynamic scores -/

/-- C1: `calculate_v_dynamic_score` returns `|V_t △ V_t1| / |V_t ∪ V_t1|`
over the node sets and `calculate_e_dynamic_score` the same formula over
the unordered-endpoint edge sets; each returns `0.0` when its union is
empty, and each result lies in `[0, 1]`. -/
theorem dynamic_scores_formula_and_range (gt gt1 : Graph) :
    calculate_v_dynamic_score gt gt1 =
      (if gt.nodeSet ∪ gt1.nodeSet = ∅ then (0 : ℚ)
       else ((symmDiff gt.nodeSet gt1.nodeSet).card : ℚ) / ((gt.nodeSet ∪ gt1.nodeSet).card : ℚ)) ∧
    calculate_e_dynamic_score gt gt1 =
      (if gt.edgeSet ∪ gt1.edgeSet = ∅ then (0 : ℚ)
       else ((symmDiff gt.edgeSet gt1.edgeSet).card : ℚ) / ((gt.edgeSet ∪ gt1.edgeSet).card : ℚ)) ∧
    0 ≤ calculate_v_dynamic_score gt gt1 ∧ calculate_v_dynamic_score gt gt1 ≤ 1 ∧
    0 ≤ calculate_e_dynamic_score gt gt1 ∧ calculate_e_dynamic_score gt gt1 ≤ 1 := by
  obtain ⟨hv1, hv2, hv3⟩ := score_formula_and_range gt.nodeSet gt1.nodeSet
  obtain ⟨he1, he2, he3⟩ := score_formula_and_range gt.edgeSet gt1.edgeSet
  exact ⟨hv1, he1, hv2, hv3, he2, he3⟩

/-! ### C8: degree centrality -/

/-- C8 (amended): for more than one node, `degree_centrality` assigns each
node `degree(node) / (|V| - 1)`; for at most one node it assigns `1` to
every node (networkx returns `{n: 1 for n in G}` there, not `0`). -/
theorem degree_centrality_values (g : Graph) :
    (1 < g.nodes.length →
      degree_centrality g =
        g.nodes.map (fun n => (n.1, (g.degree n.1 : ℚ) / ((g.nodes.length : ℚ) - 1)))) ∧
    (g.nodes.length ≤ 1 →
      degree_centrality g = g.nodes.map (fun n => (n.1, (1 : ℚ)))) := by
  constructor
  · intro h
    rw [degree_centrality, if_neg (by omega)]
  · intro h
    rw [degree_centrality, if_pos h]

/-- C8 counterexample: on a one-node graph the computed centrality of the
node is `1`, not `0` as the claim states. -/
theorem degree_centrality_one_node_not_zero :
    ¬ (∀ pc ∈ degree_centrality (Graph.mk [("A", 1)] []), pc.2 = 0) := by
  intro h
  have := h ("A", (1 : ℚ)) (by norm_num [degree_centrality])
  norm_num at this

/-- Witness for C8's amended theorem at a concrete three-node graph. -/
theorem degree_centrality_values_witness :
    1 < (Graph.mk [("A", 2), ("B", 1), ("C", 1)]
          [("A", "B", 1), ("A", "C", 1)]).nodes.length ∧
    degree_centrality (Graph.mk [("A", 2), ("B", 1), ("C", 1)]
          [("A", "B", 1), ("A", "C", 1)]) =
      (Graph.mk [("A", 2), ("B", 1), ("C", 1)]
          [("A", "B", 1), ("A", "C", 1)]).nodes.map
        (fun n =>
          (n.1, ((Graph.mk [("A", 2), ("B", 1), ("C", 1)]
              [("A", "B", 1), ("A", "C", 1)]).degree n.1 : ℚ) /
            (((Graph.mk [("A", 2), ("B", 1), ("C", 1)]
              [("A", "B", 1), ("A", "C", 1)]).nodes.length : ℚ) - 1))) :=
  ⟨by decide, (degree_centrality_values _).1 (by decide)⟩

/-! ### Node-counter machinery (C2, C3, C10) -/

theorem lookupMatches_bumpNode (p q : String) (ns : List (String × Nat)) :
    lookupMatches (bumpNode q ns) p = lookupMatches ns p + (if p = q then 1 else 0) := by
  induction ns with
  | nil =>
    by_cases h : p = q
    · subst h; simp [bumpNode, lookupMatches]
    · have h' : ¬ q = p := fun hh => h hh.symm
      simp [bumpNode, lookupMatches, h, h']
  | cons n rest ih =>
    by_cases hq : n.1 = q
    · rw [bumpNode, if_pos hq]
      by_cases hp : n.1 = p
      · have hpq : p = q := by rw [← hp, hq]
        simp [lookupMatches, hp, hpq]
      · have hpq : ¬ p = q := fun h => hp (by rw [hq, h])
        simp [lookupMatches, hp, hpq]
    · rw [bumpNode, if_neg hq]
      by_cases hp : n.1 = p
      · have hpq : ¬ p = q := fun h => hq (by rw [hp, h])
        simp [lookupMatches, hp, hpq]
      · simp [lookupMatches, hp, ih]

theorem addPlayers_cons (g : Graph) (q : String) (rest : List String) :
    addPlayers g (q :: rest) = addPlayers { g with nodes := bumpNode q g.nodes } rest := rfl

theorem matchesOf_addPlayers (g : Graph) (l : List String) (p : String) :
    (addPlayers g l).matchesOf p = g.matchesOf p + l.count p := by
  induction l generalizing g with
  | nil => simp [addPlayers]
  | cons q rest ih =>
    rw [addPlayers_cons, ih]
    show lookupMatches (bumpNode q g.nodes) p + rest.count p =
      lookupMatches g.nodes p + (q :: rest).count p
    rw [lookupMatches_bumpNode, List.count_cons]
    by_cases hpq : p = q
    · subst hpq; simp; omega
    · have hqp : ¬ q = p := fun h => hpq h.symm
      simp [hpq, hqp]

theorem nodes_foldl_bumpEdge (p : String) (l : List String) (g : Graph) :
    (l.foldl (fun g q => { g with edges := bumpEdge p q g.edges }) g).nodes = g.nodes := by
  induction l generalizing g with
  | nil => rfl
  | cons q rest ih => rw [List.foldl_cons, ih]

theorem nodes_addLineupEdges (g : Graph) (l : List String) :
    (addLineupEdges g l).nodes = g.nodes := by
  induction l generalizing g with
  | nil => rfl
  | cons p rest ih => rw [addLineupEdges, ih, nodes_foldl_bumpEdge]

theorem matchesOf_buildStep (g : Graph) (m : MatchRec) (p : String) :
    (buildStep g m).matchesOf p = g.matchesOf p + m.players.count p := by
  rw [buildStep]
  show lookupMatches (addLineupEdges (addPlayers g m.players) m.players).nodes p = _
  rw [nodes_addLineupEdges]
  exact matchesOf_addPlayers g m.players p

theorem matchesOf_foldl_buildStep (ms : List MatchRec) (g : Graph) (p : String) :
    (ms.foldl buildStep g).matchesOf p =
      g.matchesOf p + (ms.map (fun r => r.players.count p)).sum := by
  induction ms generalizing g with
  | nil => simp
  | cons m rest ih =>
    rw [List.foldl_cons, ih, matchesOf_buildStep, List.map_cons, List.sum_cons]
    omega

/-! ### C2: node `matches` counters after the pipeline -/

/-- C2 (amended): after `load_data` and `build_graph`, every player's
`matches` attribute equals the total number of occurrences of the
player's name across the loaded records' lineups — a record whose lineup
repeats a name contributes once per occurrence, not once per record. -/
theorem matches_attribute_counts_occurrences (lines : List String) (p : String) :
    (build_graph (load_data lines)).matchesOf p =
      ((load_data lines).map (fun r => r.players.count p)).sum := by
  rw [build_graph, matchesOf_foldl_buildStep]
  simp [Graph.matchesOf, lookupMatches]

/-- C2 counterexample: for the input whose one lineup is `A, A`, exactly
one loaded record contains `A`, but the built node's `matches` attribute
is 2 — the claim's per-record count is violated. -/
theorem matches_attribute_counterexample :
    ¬ ((build_graph (load_data ["MATCH: m1 | d | o", "PLAYERS: A, A"])).matchesOf "A" =
       ((load_data ["MATCH: m1 | d | o", "PLAYERS: A, A"]).filter
         (fun r => "A" ∈ r.players)).length) := by
  decide

/-! ### mapOpt / dedupKeys machinery (C4, C9) -/

theorem mapOpt_isSome_iff {α β : Type} (f : α → Option β) (l : List α) :
    (mapOpt f l).isSome = true ↔ ∀ a ∈ l, (f a).isSome = true := by
  induction l with
  | nil => simp [mapOpt]
  | cons a rest ih =>
    rw [mapOpt]
    cases hfa : f a with
    | none => simp [hfa]
    | some b =>
      cases hrest : mapOpt f rest with
      | none =>
        have : ¬ ∀ x ∈ rest, (f x).isSome = true := by
          rw [← ih, hrest]; simp
        simp only [Option.isSome_none, List.mem_cons]
        constructor
        · intro h; simp at h
        · intro h
          exact absurd (fun x hx => h x (Or.inr hx)) this
      | some bs =>
        have hrest' : ∀ x ∈ rest, (f x).isSome = true := by rw [← ih, hrest]; rfl
        simp only [Option.isSome_some, true_iff, List.mem_cons]
        intro x hx
        rcases hx with rfl | hx
        · rw [hfa]; rfl
        · exact hrest' x hx

theorem mem_dedupKeys_sub {e : String × String × Nat} {l : List (String × String × Nat)} :
    e ∈ dedupKeys l → e ∈ l := by
  induction l with
  | nil => simp [dedupKeys]
  | cons f rest ih =>
    rw [dedupKeys]
    intro h
    rcases List.mem_cons.mp h with rfl | h
    · exact List.mem_cons_self _ _
    · exact List.mem_cons_of_mem _ (ih (List.mem_of_mem_filter h))

theorem dedupKeys_covers (l : List (String × String × Nat)) (fs : Finset String) :
    (∃ e ∈ dedupKeys l, Graph.edgeKey e = fs) ↔ ∃ e ∈ l, Graph.edgeKey e = fs := by
  induction l with
  | nil => simp [dedupKeys]
  | cons f rest ih =>
    rw [dedupKeys]
    constructor
    · rintro ⟨e, he, rfl⟩
      rcases List.mem_cons.mp he with rfl | he
      · exact ⟨e, List.mem_cons_self _ _, rfl⟩
      · exact ⟨e, List.mem_cons_of_mem _ (mem_dedupKeys_sub (List.mem_of_mem_filter he)), rfl⟩
    · rintro ⟨e, he, rfl⟩
      rcases List.mem_cons.mp he with rfl | he
      · exact ⟨e, List.mem_cons_self _ _, rfl⟩
      · rcases ih.mpr ⟨e, he, rfl⟩ with ⟨e', he', hk⟩
        by_cases hsame : Graph.edgeKey e' = Graph.edgeKey f
        · exact ⟨f, List.mem_cons_self _ _, by rw [← hk, hsame]⟩
        · refine ⟨e', List.mem_cons.mpr (Or.inr ?_), hk⟩
          exact List.mem_filter.mpr ⟨he', by simpa using hsame⟩

theorem dedupKeys_key_nodup (l : List (String × String × Nat)) :
    (dedupKeys l).Pairwise (fun e f => Graph.edgeKey e ≠ Graph.edgeKey f) := by
  induction l with
  | nil => simp [dedupKeys]
  | cons f rest ih =>
    rw [dedupKeys]
    refine List.pairwise_cons.mpr ⟨?_, ?_⟩
    · intro e he
      have := (List.mem_filter.mp he).2
      simp at this
      exact fun hk => this (by rw [hk])
    · exact List.Pairwise.filter _ ih

theorem mem_edgeSet_iff (g : Graph) (fs : Finset String) :
    fs ∈ g.edgeSet ↔ ∃ e ∈ g.edges, Graph.edgeKey e = fs := by
  simp [Graph.edgeSet]

theorem unpackEdge_isSome_iff (g : Graph) (e : String × String × Nat) :
    (unpackEdge g e).isSome = true ↔ (Graph.edgeKey e).card = 2 := by
  rw [unpackEdge, Graph.edgeKey, key_card_two_iff]
  by_cases h : e.1 = e.2.1 <;> simp [h]

/-! ### C9: `get_edge_changes` raises exactly on one-sided self-loops -/

/-- C9: `get_edge_changes` returns normally iff every edge lying in
exactly one of the two graphs joins two distinct players; a self-loop
(singleton frozenset) in the symmetric difference makes the two-variable
unpacking raise instead. -/
theorem get_edge_changes_isSome_iff (gt gt1 : Graph) :
    (get_edge_changes gt gt1).isSome = true ↔
      ∀ fs ∈ symmDiff gt.edgeSet gt1.edgeSet, fs.card = 2 := by
  have hmain : (get_edge_changes gt gt1).isSome = true ↔
      (mapOpt (unpackEdge gt)
        ((dedupKeys gt.edges).filter (fun e => ¬ Graph.edgeKey e ∈ gt1.edgeSet))).isSome = true ∧
      (mapOpt (unpackEdge gt1)
        ((dedupKeys gt1.edges).filter (fun e => ¬ Graph.edgeKey e ∈ gt.edgeSet))).isSome = true := by
    rw [get_edge_changes]
    cases h1 : mapOpt (unpackEdge gt)
        ((dedupKeys gt.edges).filter (fun e => ¬ Graph.edgeKey e ∈ gt1.edgeSet)) with
    | none => simp
    | some lost =>
      cases h2 : mapOpt (unpackEdge gt1)
          ((dedupKeys gt1.edges).filter (fun e => ¬ Graph.edgeKey e ∈ gt.edgeSet)) with
      | none => simp
      | some gained => simp
  rw [hmain, mapOpt_isSome_iff, mapOpt_isSome_iff]
  constructor
  · rintro ⟨hl, hr⟩ fs hfs
    rcases Finset.mem_symmDiff.mp hfs with ⟨hin, hout⟩ | ⟨hin, hout⟩
    · rcases (dedupKeys_covers gt.edges fs).mpr ((mem_edgeSet_iff gt fs).mp hin) with ⟨e, he, rfl⟩
      have hmem : e ∈ (dedupKeys gt.edges).filter (fun e => ¬ Graph.edgeKey e ∈ gt1.edgeSet) :=
        List.mem_filter.mpr ⟨he, by simpa using hout⟩
      exact (unpackEdge_isSome_iff gt e).mp (hl e hmem)
    · rcases (dedupKeys_covers gt1.edges fs).mpr ((mem_edgeSet_iff gt1 fs).mp hin) with ⟨e, he, rfl⟩
      have hmem : e ∈ (dedupKeys gt1.edges).filter (fun e => ¬ Graph.edgeKey e ∈ gt.edgeSet) :=
        List.mem_filter.mpr ⟨he, by simpa using hout⟩
      exact (unpackEdge_isSome_iff gt1 e).mp (hr e hmem)
  · intro h
    constructor
    · intro e he
      rcases List.mem_filter.mp he with ⟨hd, hout⟩
      refine (unpackEdge_isSome_iff gt e).mpr (h _ ?_)
      refine Finset.mem_symmDiff.mpr (Or.inl ⟨?_, by simpa using hout⟩)
      exact (mem_edgeSet_iff gt _).mpr ⟨e, mem_dedupKeys_sub hd, rfl⟩
    · intro e he
      rcases List.mem_filter.mp he with ⟨hd, hout⟩
      refine (unpackEdge_isSome_iff gt1 e).mpr (h _ ?_)
      refine Finset.mem_symmDiff.mpr (Or.inr ⟨?_, by simpa using hout⟩)
      exact (mem_edgeSet_iff gt1 _).mpr ⟨e, mem_dedupKeys_sub hd, rfl⟩

/-! ### Edge-weight machinery (C3, C6, C10) -/

theorem foldl_preserve {σ β : Type} (step : σ → β → σ) (P : σ → Prop)
    (l : List β) (hstep : ∀ g b, b ∈ l → P g → P (step g b)) (g : σ) (hg : P g) :
    P (l.foldl step g) := by
  induction l generalizing g with
  | nil => exact hg
  | cons b rest ih =>
    rw [List.foldl_cons]
    exact ih (fun g' b' hb' => hstep g' b' (List.mem_cons_of_mem _ hb'))
      _ (hstep g b (List.mem_cons_self _ _) hg)

theorem sum_weights_bumpEdge (u v : String) (es : List (String × String × Nat)) :
    ((bumpEdge u v es).map (fun e => e.2.2)).sum = (es.map (fun e => e.2.2)).sum + 1 := by
  induction es with
  | nil => simp [bumpEdge]
  | cons e rest ih =>
    rw [bumpEdge]
    split
    · simp only [List.map_cons, List.sum_cons]
      omega
    · simp only [List.map_cons, List.sum_cons, ih]
      omega

theorem totalWeight_foldl_bumpEdge (p : String) (l : List String) (g : Graph) :
    (l.foldl (fun g q => { g with edges := bumpEdge p q g.edges }) g).totalWeight =
      g.totalWeight + l.length := by
  induction l generalizing g with
  | nil => simp
  | cons q rest ih =>
    rw [List.foldl_cons, ih]
    have h : Graph.totalWeight { g with edges := bumpEdge p q g.edges } = g.totalWeight + 1 := by
      show ((bumpEdge p q g.edges).map (fun e => e.2.2)).sum = _
      rw [sum_weights_bumpEdge]
      rfl
    rw [h, List.length_cons]
    omega

theorem totalWeight_addLineupEdges (g : Graph) (l : List String) :
    (addLineupEdges g l).totalWeight = g.totalWeight + l.length.choose 2 := by
  induction l generalizing g with
  | nil => simp [addLineupEdges]
  | cons p rest ih =>
    rw [addLineupEdges, ih, totalWeight_foldl_bumpEdge, List.length_cons]
    have h2 := Nat.choose_succ_succ rest.length 1
    norm_num at h2
    omega

theorem edges_addPlayers (g : Graph) (l : List String) : (addPlayers g l).edges = g.edges := by
  induction l generalizing g with
  | nil => rfl
  | cons q rest ih => rw [addPlayers_cons, ih]

theorem totalWeight_buildStep (g : Graph) (m : MatchRec) :
    (buildStep g m).totalWeight = g.totalWeight + m.players.length.choose 2 := by
  rw [buildStep, totalWeight_addLineupEdges]
  have h : (addPlayers g m.players).totalWeight = g.totalWeight := by
    show ((addPlayers g m.players).edges.map (fun e => e.2.2)).sum = _
    rw [edges_addPlayers]
    rfl
  rw [h]

theorem mem_bumpEdge_cases {u v : String} {es : List (String × String × Nat)}
    {f : String × String × Nat} (hf : f ∈ bumpEdge u v es) :
    f ∈ es ∨ (∃ e ∈ es, f = (e.1, e.2.1, e.2.2 + 1)) ∨ f = (u, v, 1) := by
  induction es with
  | nil =>
    rw [bumpEdge] at hf
    rcases List.mem_singleton.mp hf with rfl
    right; right; rfl
  | cons e rest ih =>
    rw [bumpEdge] at hf
    split at hf
    · rcases List.mem_cons.mp hf with rfl | hf
      · right; left; exact ⟨e, List.mem_cons_self _ _, rfl⟩
      · left; exact List.mem_cons_of_mem _ hf
    · rcases List.mem_cons.mp hf with rfl | hf
      · left; exact List.mem_cons_self _ _
      · rcases ih hf with h | ⟨e', he', h⟩ | h
        · left; exact List.mem_cons_of_mem _ h
        · right; left; exact ⟨e', List.mem_cons_of_mem _ he', h⟩
        · right; right; exact h

theorem bumpEdge_keys_nodup (u v : String) (es : List (String × String × Nat))
    (h : es.Pairwise (fun e f => Graph.edgeKey e ≠ Graph.edgeKey f)) :
    (bumpEdge u v es).Pairwise (fun e f => Graph.edgeKey e ≠ Graph.edgeKey f) := by
  induction es with
  | nil => simp [bumpEdge]
  | cons e rest ih =>
    rw [bumpEdge]
    rcases List.pairwise_cons.mp h with ⟨he, hrest⟩
    split
    · exact List.pairwise_cons.mpr ⟨he, hrest⟩
    · rename_i hnot
      refine List.pairwise_cons.mpr ⟨?_, ih hrest⟩
      intro f hf
      rcases mem_bumpEdge_cases hf with hmem | ⟨e', he', rfl⟩ | rfl
      · exact he f hmem
      · exact he e' he'
      · show Graph.edgeKey e ≠ Graph.edgeKey (u, v, 1)
        intro heq
        refine hnot ((sameEdge_iff_key u v e).mpr ?_)
        simpa [Graph.edgeKey] using heq

theorem bumpEdge_no_selfloop (u v : String) (huv : u ≠ v)
    (es : List (String × String × Nat)) (h : ∀ e ∈ es, e.1 ≠ e.2.1) :
    ∀ e ∈ bumpEdge u v es, e.1 ≠ e.2.1 := by
  intro f hf
  rcases mem_bumpEdge_cases hf with hmem | ⟨e', he', rfl⟩ | rfl
  · exact h f hmem
  · exact h e' he'
  · exact huv

theorem bumpEdge_weight_pos (u v : String)
    (es : List (String × String × Nat)) (h : ∀ e ∈ es, 1 ≤ e.2.2) :
    ∀ e ∈ bumpEdge u v es, 1 ≤ e.2.2 := by
  intro f hf
  rcases mem_bumpEdge_cases hf with hmem | ⟨e', he', rfl⟩ | rfl
  · exact h f hmem
  · simp
  · simp

theorem keys_nodup_addLineupEdges (g : Graph) (l : List String)
    (h : g.edges.Pairwise (fun e f => Graph.edgeKey e ≠ Graph.edgeKey f)) :
    (addLineupEdges g l).edges.Pairwise (fun e f => Graph.edgeKey e ≠ Graph.edgeKey f) := by
  induction l generalizing g with
  | nil => exact h
  | cons p rest ih =>
    rw [addLineupEdges]
    refine ih _ ?_
    refine foldl_preserve _ (fun g => g.edges.Pairwise fun e f => Graph.edgeKey e ≠ Graph.edgeKey f)
      rest (fun g' q _ hg' => ?_) g h
    exact bumpEdge_keys_nodup p q g'.edges hg'

theorem no_selfloop_addLineupEdges (l : List String) :
    ∀ (g : Graph), l.Nodup → (∀ e ∈ g.edges, e.1 ≠ e.2.1) →
      ∀ e ∈ (addLineupEdges g l).edges, e.1 ≠ e.2.1 := by
  induction l with
  | nil => intro g _ h; exact h
  | cons p rest ih =>
    intro g hnd h
    rw [addLineupEdges]
    rcases List.nodup_cons.mp hnd with ⟨hp, hrest⟩
    refine ih _ hrest ?_
    refine foldl_preserve _ (fun g => ∀ e ∈ g.edges, e.1 ≠ e.2.1)
      rest (fun g' q hq hg' => ?_) g h
    exact bumpEdge_no_selfloop p q (fun hpq => hp (hpq ▸ hq)) g'.edges hg'

theorem weight_pos_addLineupEdges (g : Graph) (l : List String)
    (h : ∀ e ∈ g.edges, 1 ≤ e.2.2) :
    ∀ e ∈ (addLineupEdges g l).edges, 1 ≤ e.2.2 := by
  induction l generalizing g with
  | nil => exact h
  | cons p rest ih =>
    rw [addLineupEdges]
    refine ih _ ?_
    refine foldl_preserve _ (fun g => ∀ e ∈ g.edges, 1 ≤ e.2.2)
      rest (fun g' q _ hg' => ?_) g h
    exact bumpEdge_weight_pos p q g'.edges hg'

theorem mem_bumpNode_cases {p : String} {ns : List (String × Nat)}
    {n : String × Nat} (hn : n ∈ bumpNode p ns) :
    n ∈ ns ∨ (∃ n' ∈ ns, n = (n'.1, n'.2 + 1)) ∨ n = (p, 1) := by
  induction ns with
  | nil =>
    rw [bumpNode] at hn
    rcases List.mem_singleton.mp hn with rfl
    right; right; rfl
  | cons m rest ih =>
    rw [bumpNode] at hn
    split at hn
    · rcases List.mem_cons.mp hn with rfl | hn
      · right; left; exact ⟨m, List.mem_cons_self _ _, rfl⟩
      · left; exact List.mem_cons_of_mem _ hn
    · rcases List.mem_cons.mp hn with rfl | hn
      · left; exact List.mem_cons_self _ _
      · rcases ih hn with h | ⟨n', hn', h⟩ | h
        · left; exact List.mem_cons_of_mem _ h
        · right; left; exact ⟨n', List.mem_cons_of_mem _ hn', h⟩
        · right; right; exact h

theorem matches_pos_addPlayers (g : Graph) (l : List String)
    (h : ∀ n ∈ g.nodes, 1 ≤ n.2) :
    ∀ n ∈ (addPlayers g l).nodes, 1 ≤ n.2 := by
  induction l generalizing g with
  | nil => exact h
  | cons q rest ih =>
    rw [addPlayers_cons]
    refine ih _ (fun n hn => ?_)
    rcases mem_bumpNode_cases hn with hmem | ⟨n', hn', rfl⟩ | rfl
    · exact h n hmem
    · simp
    · simp

theorem node_names_addPlayers (g : Graph) (l : List String) :
    ∀ n ∈ (addPlayers g l).nodes, n.1 ∈ g.nodes.map Prod.fst ∨ n.1 ∈ l := by
  induction l generalizing g with
  | nil => intro n hn; exact Or.inl (List.mem_map_of_mem _ hn)
  | cons q rest ih =>
    rw [addPlayers_cons]
    intro n hn
    rcases ih _ n hn with hin | hin
    · rcases List.mem_map.mp hin with ⟨n', hn', heq⟩
      rcases mem_bumpNode_cases hn' with hmem | ⟨n'', hn'', hb⟩ | hb
      · exact Or.inl (by rw [← heq]; exact List.mem_map_of_mem _ hmem)
      · refine Or.inl ?_
        rw [← heq, hb]
        show n''.1 ∈ g.nodes.map Prod.fst
        exact List.mem_map_of_mem _ hn''
      · refine Or.inr ?_
        rw [← heq, hb]
        show q ∈ q :: rest
        exact List.mem_cons_self _ _
    · exact Or.inr (List.mem_cons_of_mem _ hin)

theorem build_graph_node_origin (ms : List MatchRec) :
    ∀ n ∈ (build_graph ms).nodes, ∃ r ∈ ms, n.1 ∈ r.players := by
  rw [build_graph]
  refine foldl_preserve buildStep (fun g => ∀ n ∈ g.nodes, ∃ r ∈ ms, n.1 ∈ r.players)
    ms ?_ ⟨[], []⟩ (by simp)
  intro g r hr hg n hn
  have hnodes : (buildStep g r).nodes = (addPlayers g r.players).nodes := by
    rw [buildStep, nodes_addLineupEdges]
  rw [hnodes] at hn
  rcases node_names_addPlayers g r.players n hn with hin | hin
  · rcases List.mem_map.mp hin with ⟨n2, hn2, heq⟩
    rcases hg n2 hn2 with ⟨r2, hr2, hp⟩
    exact ⟨r2, hr2, heq ▸ hp⟩
  · exact ⟨r, hr, hin⟩

theorem build_graph_keys_nodup (ms : List MatchRec) :
    (build_graph ms).edges.Pairwise (fun e f => Graph.edgeKey e ≠ Graph.edgeKey f) := by
  rw [build_graph]
  refine foldl_preserve buildStep
    (fun g => g.edges.Pairwise (fun e f => Graph.edgeKey e ≠ Graph.edgeKey f))
    ms ?_ ⟨[], []⟩ (by simp)
  intro g r _ hg
  have hge : (addPlayers g r.players).edges.Pairwise
      (fun e f => Graph.edgeKey e ≠ Graph.edgeKey f) := by
    rw [edges_addPlayers]
    exact hg
  exact keys_nodup_addLineupEdges _ _ hge

/-! ### C3: invariants of every built graph -/

/-- C3 (amended): unconditionally, the built graph has no two stored
edges with the same unordered endpoint pair (an existing pair is
incremented, never duplicated), every edge weight is at least 1, every
node's `matches` is at least 1, and every node is named by a player of
some processed lineup; provided additionally that no processed lineup
repeats a name, the graph has no self-loops.  (Lineups with a duplicated
name do create self-loops, see the counterexample — that conjunct alone
needs the hypothesis.) -/
theorem build_graph_invariants (ms : List MatchRec) :
    (build_graph ms).edges.Pairwise (fun e f => Graph.edgeKey e ≠ Graph.edgeKey f) ∧
    (∀ e ∈ (build_graph ms).edges, 1 ≤ e.2.2) ∧
    (∀ n ∈ (build_graph ms).nodes, 1 ≤ n.2) ∧
    (∀ n ∈ (build_graph ms).nodes, ∃ r ∈ ms, n.1 ∈ r.players) ∧
    ((∀ r ∈ ms, r.players.Nodup) → ∀ e ∈ (build_graph ms).edges, e.1 ≠ e.2.1) := by
  refine ⟨build_graph_keys_nodup ms, ?_, ?_, build_graph_node_origin ms, ?_⟩
  · rw [build_graph]
    refine foldl_preserve buildStep (fun g => ∀ e ∈ g.edges, 1 ≤ e.2.2)
      ms ?_ ⟨[], []⟩ (by simp)
    intro g r _ hg
    have hedges : (buildStep g r).edges = (addLineupEdges (addPlayers g r.players)
      r.players).edges := rfl
    have hge3 : ∀ e ∈ (addPlayers g r.players).edges, 1 ≤ e.2.2 := by
      rw [edges_addPlayers]; exact hg
    rw [hedges]
    exact weight_pos_addLineupEdges _ _ hge3
  · rw [build_graph]
    refine foldl_preserve buildStep (fun g => ∀ n ∈ g.nodes, 1 ≤ n.2)
      ms ?_ ⟨[], []⟩ (by simp)
    intro g r _ hg
    have hnodes : (buildStep g r).nodes = (addPlayers g r.players).nodes := by
      rw [buildStep, nodes_addLineupEdges]
    rw [hnodes]
    exact matches_pos_addPlayers g r.players hg
  · intro hnd
    rw [build_graph]
    refine foldl_preserve buildStep (fun g => ∀ e ∈ g.edges, e.1 ≠ e.2.1)
      ms ?_ ⟨[], []⟩ (by simp)
    intro g r hr hg
    have hedges : (buildStep g r).edges = (addLineupEdges (addPlayers g r.players)
      r.players).edges := rfl
    have hge : ∀ e ∈ (addPlayers g r.players).edges, e.1 ≠ e.2.1 := by
      rw [edges_addPlayers]; exact hg
    rw [hedges]
    exact no_selfloop_addLineupEdges _ _ (hnd r hr) hge

/-- C3 counterexample: the lineup `A, A` (a duplicated name) produces a
self-loop edge, so the claim's unconditional "no self-loop" invariant
fails. -/
theorem build_graph_selfloop_counterexample :
    ¬ (∀ e ∈ (build_graph [⟨"m1", "d", "o", ["A", "A"]⟩]).edges, e.1 ≠ e.2.1) := by
  decide

/-- Witness for C3's amended theorem on a concrete duplicate-free input,
discharging the no-self-loop conjunct's hypothesis there. -/
theorem build_graph_invariants_witness :
    ((build_graph [⟨"m1", "d", "o", ["A", "B"]⟩]).edges.Pairwise
       (fun e f => Graph.edgeKey e ≠ Graph.edgeKey f) ∧
     (∀ e ∈ (build_graph [⟨"m1", "d", "o", ["A", "B"]⟩]).edges, 1 ≤ e.2.2) ∧
     (∀ n ∈ (build_graph [⟨"m1", "d", "o", ["A", "B"]⟩]).nodes, 1 ≤ n.2) ∧
     (∀ n ∈ (build_graph [⟨"m1", "d", "o", ["A", "B"]⟩]).nodes,
       ∃ r ∈ [(⟨"m1", "d", "o", ["A", "B"]⟩ : MatchRec)], n.1 ∈ r.players)) ∧
    (∀ r ∈ [(⟨"m1", "d", "o", ["A", "B"]⟩ : MatchRec)], r.players.Nodup) ∧
    (∀ e ∈ (build_graph [⟨"m1", "d", "o", ["A", "B"]⟩]).edges, e.1 ≠ e.2.1) :=
  ⟨⟨(build_graph_invariants _).1, (build_graph_invariants _).2.1,
    (build_graph_invariants _).2.2.1, (build_graph_invariants _).2.2.2.1⟩,
   by decide,
   (build_graph_invariants _).2.2.2.2 (by decide)⟩

/-! ### C6: one record's contribution to the edge weights -/

/-- C6: processing one match record with a lineup of length `k ≥ 2` adds
exactly `k(k-1)/2` to the sum of all edge weights, keeps the unordered
endpoint keys of the stored edges pairwise distinct (an existing pair is
incremented, never duplicated), and depends on nothing of the record but
its lineup. -/
theorem buildStep_weight_increment (g : Graph) (m : MatchRec)
    (hk : 2 ≤ m.players.length) :
    (buildStep g m).totalWeight =
      g.totalWeight + m.players.length * (m.players.length - 1) / 2 ∧
    (g.edges.Pairwise (fun e f => Graph.edgeKey e ≠ Graph.edgeKey f) →
      (buildStep g m).edges.Pairwise (fun e f => Graph.edgeKey e ≠ Graph.edgeKey f)) ∧
    (∀ m' : MatchRec, m'.players = m.players → buildStep g m' = buildStep g m) := by
  refine ⟨?_, ?_, ?_⟩
  · rw [totalWeight_buildStep, Nat.choose_two_right]
  · intro h
    have hg : (addPlayers g m.players).edges.Pairwise
        (fun e f => Graph.edgeKey e ≠ Graph.edgeKey f) := by
      rw [edges_addPlayers]; exact h
    exact keys_nodup_addLineupEdges _ _ hg
  · intro m' hm'
    rw [buildStep, buildStep, hm']

/-- Witness for C6 on a concrete three-player lineup. -/
theorem buildStep_weight_increment_witness :
    2 ≤ (⟨"m1", "d", "o", ["A", "B", "C"]⟩ : MatchRec).players.length ∧
    ((buildStep ⟨[], []⟩ ⟨"m1", "d", "o", ["A", "B", "C"]⟩).totalWeight =
      (Graph.mk [] []).totalWeight + 3 * (3 - 1) / 2 ∧
    ((Graph.mk [] []).edges.Pairwise (fun e f => Graph.edgeKey e ≠ Graph.edgeKey f) →
      (buildStep ⟨[], []⟩ ⟨"m1", "d", "o", ["A", "B", "C"]⟩).edges.Pairwise
        (fun e f => Graph.edgeKey e ≠ Graph.edgeKey f)) ∧
    (∀ m' : MatchRec, m'.players = (⟨"m1", "d", "o", ["A", "B", "C"]⟩ : MatchRec).players →
      buildStep ⟨[], []⟩ m' = buildStep ⟨[], []⟩ ⟨"m1", "d", "o", ["A", "B", "C"]⟩)) :=
  ⟨by decide, buildStep_weight_increment _ _ (by decide)⟩

/-! ### `load_data` line-classification machinery (C5, C10) -/

theorem startsWithL_cons {s : List Char} {c : Char} {cs : List Char}
    (h : startsWithL s (c :: cs) = true) : ∃ t, s = c :: t ∧ startsWithL t cs = true := by
  cases s with
  | nil => simp [startsWithL] at h
  | cons a t =>
    rw [startsWithL, Bool.and_eq_true] at h
    exact ⟨t, by rw [of_decide_eq_true h.1], h.2⟩

theorem loadStep_match (st : LoadState) (raw : String)
    (h : startsWithL (stripChars raw.data) "MATCH:".data = true) :
    loadStep st raw = ⟨st.flushed, some (parseMatchLine (stripChars raw.data)), 0⟩ := by
  obtain ⟨t, ht, -⟩ :=
    startsWithL_cons (show startsWithL (stripChars raw.data) ('M' :: "ATCH:".data) = true from h)
  rw [loadStep]
  rw [ht] at h
  simp [ht, h, startsWithL]

theorem loadStep_players (st : LoadState) (c : MatchRec) (hc : st.cur = some c) (raw : String)
    (h : startsWithL (stripChars raw.data) "PLAYERS:".data = true) :
    loadStep st raw =
      ⟨st.done, some { c with players := parsePlayers (stripChars raw.data) },
        st.copies + 1⟩ := by
  obtain ⟨t, ht, -⟩ :=
    startsWithL_cons (show startsWithL (stripChars raw.data) ('P' :: "LAYERS:".data) = true from h)
  rw [loadStep]
  rw [ht] at h
  simp [ht, h, hc, startsWithL]

theorem loadStep_inert (st : LoadState) (raw : String)
    (hm : startsWithL (stripChars raw.data) "MATCH:".data = false)
    (hp : startsWithL (stripChars raw.data) "PLAYERS:".data = false) :
    loadStep st raw = st := by
  by_cases h1 : (startsWithL (stripChars raw.data) "#".data || (stripChars raw.data).isEmpty) = true
  · simp [loadStep, h1]
  · simp only [Bool.or_eq_true] at h1
    push_neg at h1
    simp [loadStep, h1.1, h1.2, hm, hp]

theorem foldl_inert (mid : List String)
    (hmid : ∀ l ∈ mid, startsWithL (stripChars l.data) "MATCH:".data = false ∧
      startsWithL (stripChars l.data) "PLAYERS:".data = false)
    (st : LoadState) : mid.foldl loadStep st = st := by
  induction mid with
  | nil => rfl
  | cons l rest ih =>
    rw [List.foldl_cons,
      loadStep_inert st l (hmid l (List.mem_cons_self _ _)).1 (hmid l (List.mem_cons_self _ _)).2]
    exact ih (fun x hx => hmid x (List.mem_cons_of_mem _ hx))

theorem flushed_copies_zero (d : List MatchRec) (c : Option MatchRec) :
    (LoadState.mk d c 0).flushed = d := by
  cases c <;> simp [LoadState.flushed]

/-! ### C5: records with a missing or empty lineup -/

/-- C5 (amended): a `MATCH:` line not followed by any `PLAYERS:` line
before the next `MATCH:` line (or end of input) contributes nothing —
deleting it leaves `load_data`'s records and the built graph unchanged,
and no error occurs.  A `PLAYERS:` line with empty text, however, does
not yield an empty lineup: it parses to the one-element lineup `[""]`,
which contributes one empty-named node (see the counterexample). -/
theorem missing_lineup_line_removable (pre mid post : List String) (m : String)
    (hm : startsWithL (stripChars m.data) "MATCH:".data = true)
    (hmid : ∀ l ∈ mid, startsWithL (stripChars l.data) "MATCH:".data = false ∧
      startsWithL (stripChars l.data) "PLAYERS:".data = false)
    (hpost : post = [] ∨ ∃ p ps, post = p :: ps ∧
      startsWithL (stripChars p.data) "MATCH:".data = true) :
    load_data (pre ++ m :: (mid ++ post)) = load_data (pre ++ (mid ++ post)) ∧
    build_graph (load_data (pre ++ m :: (mid ++ post))) =
      build_graph (load_data (pre ++ (mid ++ post))) ∧
    parsePlayers "PLAYERS:".data = [""] := by
  have hdata : load_data (pre ++ m :: (mid ++ post)) = load_data (pre ++ (mid ++ post)) := by
    rw [load_data, load_data, List.foldl_append, List.foldl_append]
    set st := pre.foldl loadStep ⟨[], none, 0⟩ with hst
    rw [List.foldl_cons, loadStep_match st m hm, List.foldl_append, List.foldl_append,
      foldl_inert mid hmid, foldl_inert mid hmid]
    rcases hpost with rfl | ⟨p, ps, rfl, hp⟩
    · simp [flushed_copies_zero]
    · rw [List.foldl_cons, List.foldl_cons, loadStep_match _ p hp, loadStep_match st p hp]
      rw [flushed_copies_zero]
  exact ⟨hdata, by rw [hdata], by decide⟩

/-- C5 counterexample: a record whose `PLAYERS:` line is empty is not
dropped — it adds an empty-named node, so the graph differs from the one
built with the record removed. -/
theorem empty_lineup_not_dropped :
    ¬ (build_graph (load_data ["MATCH: m1 | d | o", "PLAYERS:"]) =
       build_graph (load_data [])) := by
  decide

/-- Witness for C5's amended theorem on concrete input lines. -/
theorem missing_lineup_line_removable_witness :
    (startsWithL (stripChars ("MATCH: b | d | o").data) "MATCH:".data = true ∧
     (∀ l ∈ ["# note", "other junk"],
        startsWithL (stripChars l.data) "MATCH:".data = false ∧
        startsWithL (stripChars l.data) "PLAYERS:".data = false)) ∧
    load_data (["MATCH: a | d | o", "PLAYERS: X, Y"] ++ "MATCH: b | d | o" ::
        (["# note", "other junk"] ++ ["MATCH: c | d | o", "PLAYERS: Z"])) =
      load_data (["MATCH: a | d | o", "PLAYERS: X, Y"] ++
        (["# note", "other junk"] ++ ["MATCH: c | d | o", "PLAYERS: Z"])) :=
  ⟨⟨by decide, by decide⟩,
    (missing_lineup_line_removable _ _ _ _ (by decide) (by decide)
      (Or.inr ⟨"MATCH: c | d | o", ["PLAYERS: Z"], rfl, by decide⟩)).1⟩

/-! ### Per-pair edge-weight machinery (C10) -/

theorem lookupWeight_bumpEdge (u v a b : String) (es : List (String × String × Nat)) :
    lookupWeight u v (bumpEdge a b es) =
      lookupWeight u v es + (if sameEdge u v (a, b, 0) = true then 1 else 0) := by
  induction es with
  | nil =>
    by_cases h : sameEdge u v (a, b, 0) = true
    · have h' : sameEdge u v (a, b, 1) = true := h
      simp [bumpEdge, lookupWeight, h', h]
    · have h' : ¬ sameEdge u v (a, b, 1) = true := h
      simp [bumpEdge, lookupWeight, h', h]
  | cons e rest ih =>
    rw [bumpEdge]
    by_cases hab : sameEdge a b e = true
    · rw [if_pos hab]
      have hkey : Graph.edgeKey e = {a, b} := (sameEdge_iff_key a b e).mp hab
      by_cases huv : sameEdge u v e = true
      · have huv1 : sameEdge u v (e.1, e.2.1, e.2.2 + 1) = true := huv
        have hcond : sameEdge u v (a, b, 0) = true := by
          refine (sameEdge_iff_key u v _).mpr ?_
          show ({a, b} : Finset String) = {u, v}
          rw [← hkey]
          exact (sameEdge_iff_key u v e).mp huv
        simp [lookupWeight, huv, huv1, hcond]
      · have huv1 : ¬ sameEdge u v (e.1, e.2.1, e.2.2 + 1) = true := huv
        have hcond : ¬ sameEdge u v (a, b, 0) = true := by
          intro hc
          refine huv ((sameEdge_iff_key u v e).mpr ?_)
          rw [hkey]
          exact (sameEdge_iff_key u v _).mp hc
        simp [lookupWeight, huv, huv1, hcond]
    · rw [if_neg hab]
      by_cases huv : sameEdge u v e = true
      · have hcond : ¬ sameEdge u v (a, b, 0) = true := by
          intro hc
          refine hab ((sameEdge_iff_key a b e).mpr ?_)
          rw [(sameEdge_iff_key u v e).mp huv]
          exact ((sameEdge_iff_key u v _).mp hc).symm
        simp [lookupWeight, huv, hcond]
      · simp [lookupWeight, huv, ih]

theorem weightOf_foldl_bumpEdge (p : String) (l : List String) (g : Graph) (u v : String) :
    (l.foldl (fun g q => { g with edges := bumpEdge p q g.edges }) g).weightOf u v =
      g.weightOf u v + l.countP (fun q => sameEdge u v (p, q, 0)) := by
  induction l generalizing g with
  | nil => simp
  | cons q rest ih =>
    rw [List.foldl_cons, ih]
    show lookupWeight u v (bumpEdge p q g.edges) + _ = _
    rw [lookupWeight_bumpEdge, List.countP_cons]
    simp only [Graph.weightOf]
    omega

/-- The number of position pairs `i < j` of a lineup whose two names form
the unordered pair `{u, v}` (proof-side accounting device). -/
def pairWeight (u v : String) : List String → Nat
  | [] => 0
  | p :: rest => rest.countP (fun q => sameEdge u v (p, q, 0)) + pairWeight u v rest

theorem weightOf_addLineupEdges (g : Graph) (l : List String) (u v : String) :
    (addLineupEdges g l).weightOf u v = g.weightOf u v + pairWeight u v l := by
  induction l generalizing g with
  | nil => simp [addLineupEdges, pairWeight]
  | cons p rest ih =>
    rw [addLineupEdges, ih, weightOf_foldl_bumpEdge, pairWeight]
    omega

theorem weightOf_buildStep (g : Graph) (m : MatchRec) (u v : String) :
    (buildStep g m).weightOf u v = g.weightOf u v + pairWeight u v m.players := by
  rw [buildStep, weightOf_addLineupEdges]
  have h : (addPlayers g m.players).weightOf u v = g.weightOf u v := by
    show lookupWeight u v (addPlayers g m.players).edges = _
    rw [edges_addPlayers]
    rfl
  rw [h]

theorem weightOf_foldl_replicate (n : Nat) (r : MatchRec) (g : Graph) (u v : String) :
    ((List.replicate n r).foldl buildStep g).weightOf u v =
      g.weightOf u v + n * pairWeight u v r.players := by
  induction n generalizing g with
  | zero => simp
  | succ k ih =>
    rw [List.replicate_succ, List.foldl_cons, ih, weightOf_buildStep, Nat.succ_mul]
    omega

theorem matchesOf_foldl_replicate (n : Nat) (r : MatchRec) (g : Graph) (p : String) :
    ((List.replicate n r).foldl buildStep g).matchesOf p =
      g.matchesOf p + n * r.players.count p := by
  rw [matchesOf_foldl_buildStep, List.map_replicate, List.sum_replicate, smul_eq_mul]

/-! ### C10: several `PLAYERS:` lines after one `MATCH:` line -/

theorem build_replicate_matches (n : Nat) (r : MatchRec) (p : String) :
    (build_graph (List.replicate n r)).matchesOf p = n * (build_graph [r]).matchesOf p := by
  have h1 : (build_graph [r]).matchesOf p = r.players.count p := by
    rw [build_graph, matchesOf_foldl_buildStep]
    simp [Graph.matchesOf, lookupMatches]
  rw [h1, build_graph, matchesOf_foldl_replicate]
  simp [Graph.matchesOf, lookupMatches]

theorem build_replicate_weight (n : Nat) (r : MatchRec) (u v : String) :
    (build_graph (List.replicate n r)).weightOf u v = n * (build_graph [r]).weightOf u v := by
  have h1 : (build_graph [r]).weightOf u v = pairWeight u v r.players := by
    show ((List.replicate 1 r).foldl buildStep ⟨[], []⟩).weightOf u v = _
    rw [weightOf_foldl_replicate]
    simp [Graph.weightOf, lookupWeight]
  rw [h1, build_graph, weightOf_foldl_replicate]
  simp [Graph.weightOf, lookupWeight]

theorem foldl_players_lines (rest : List String) : ∀ (l : String),
    (∀ x ∈ l :: rest, startsWithL (stripChars x.data) "PLAYERS:".data = true) →
    ∀ (d : List MatchRec) (c : MatchRec) (k : Nat),
      (l :: rest).foldl loadStep ⟨d, some c, k⟩ =
        ⟨d,
         some { c with players := parsePlayers (stripChars ((l :: rest).getLast (List.cons_ne_nil l rest)).data) },
         k + (rest.length + 1)⟩ := by
  induction rest with
  | nil =>
    intro l hps d c k
    rw [List.foldl_cons, loadStep_players _ c rfl l (hps l (List.mem_cons_self _ _))]
    rfl
  | cons r rs ih =>
    intro l hps d c k
    rw [List.foldl_cons, loadStep_players _ c rfl l (hps l (List.mem_cons_self _ _))]
    have hps' : ∀ x ∈ r :: rs, startsWithL (stripChars x.data) "PLAYERS:".data = true :=
      fun x hx => hps x (List.mem_cons_of_mem _ hx)
    rw [ih r hps' d _ (k + 1)]
    have hlast : (r :: rs).getLast (List.cons_ne_nil r rs) =
        (l :: r :: rs).getLast (List.cons_ne_nil l (r :: rs)) :=
      (List.getLast_cons (List.cons_ne_nil r rs)).symm
    rw [hlast]
    have harith : k + 1 + (rs.length + 1) = k + ((r :: rs).length + 1) := by
      rw [List.length_cons]
      omega
    rw [harith]

/-- C10: when one `MATCH:` line is followed by two or more `PLAYERS:`
lines, `load_data` appends one aliased copy of the same record per
`PLAYERS:` line, every copy showing the last line's lineup, and
`build_graph` therefore multiplies every `matches` counter and every
pair's edge weight by the number of `PLAYERS:` lines. -/
theorem repeated_players_lines_alias (m l1 l2 : String) (rest : List String)
    (hm : startsWithL (stripChars m.data) "MATCH:".data = true)
    (hps : ∀ x ∈ l1 :: l2 :: rest, startsWithL (stripChars x.data) "PLAYERS:".data = true) :
    load_data (m :: l1 :: l2 :: rest) =
      List.replicate (rest.length + 2)
        { parseMatchLine (stripChars m.data) with players := parsePlayers (stripChars ((l2 :: rest).getLast (List.cons_ne_nil l2 rest)).data) } ∧
    (∀ p, (build_graph (load_data (m :: l1 :: l2 :: rest))).matchesOf p =
      (rest.length + 2) *
        (build_graph [{ parseMatchLine (stripChars m.data) with players := parsePlayers (stripChars ((l2 :: rest).getLast (List.cons_ne_nil l2 rest)).data) }]).matchesOf p) ∧
    (∀ u v, (build_graph (load_data (m :: l1 :: l2 :: rest))).weightOf u v =
      (rest.length + 2) *
        (build_graph [{ parseMatchLine (stripChars m.data) with players := parsePlayers (stripChars ((l2 :: rest).getLast (List.cons_ne_nil l2 rest)).data) }]).weightOf u v) := by
  have hlast : (l1 :: l2 :: rest).getLast (List.cons_ne_nil l1 (l2 :: rest)) =
      (l2 :: rest).getLast (List.cons_ne_nil l2 rest) :=
    List.getLast_cons (List.cons_ne_nil l2 rest)
  have hcount : 0 + ((l2 :: rest).length + 1) = rest.length + 2 := by
    rw [List.length_cons]
    omega
  have hload : load_data (m :: l1 :: l2 :: rest) =
      List.replicate (rest.length + 2)
        { parseMatchLine (stripChars m.data) with players := parsePlayers (stripChars ((l2 :: rest).getLast (List.cons_ne_nil l2 rest)).data) } := by
    rw [load_data, List.foldl_cons, loadStep_match _ m hm,
      foldl_players_lines (l2 :: rest) l1 hps, hlast, hcount, flushed_copies_zero]
    simp [LoadState.flushed]
  refine ⟨hload, fun p => ?_, fun u v => ?_⟩
  · rw [hload, build_replicate_matches]
  · rw [hload, build_replicate_weight]

/-- Witness for C10 on concrete input lines: one `MATCH:` line followed
by two `PLAYERS:` lines. -/
theorem repeated_players_lines_alias_witness :
    (startsWithL (stripChars ("MATCH: m1 | d | o").data) "MATCH:".data = true ∧
     (∀ x ∈ ["PLAYERS: A, B", "PLAYERS: C, D"],
        startsWithL (stripChars x.data) "PLAYERS:".data = true)) ∧
    load_data ["MATCH: m1 | d | o", "PLAYERS: A, B", "PLAYERS: C, D"] =
      List.replicate (([] : List String).length + 2)
        { parseMatchLine (stripChars ("MATCH: m1 | d | o").data) with players := parsePlayers (stripChars ((("PLAYERS: C, D") :: ([] : List String)).getLast (List.cons_ne_nil _ _)).data) } :=
  ⟨⟨by decide, by decide⟩,
    (repeated_players_lines_alias "MATCH: m1 | d | o" "PLAYERS: A, B" "PLAYERS: C, D" []
      (by decide) (by decide)).1⟩

/-! ### C4 machinery: exactness of the ranked diff lists -/

theorem mem_dedupNames (l : List String) (p : String) : p ∈ dedupNames l ↔ p ∈ l := by
  induction l with
  | nil => simp [dedupNames]
  | cons q rest ih =>
    rw [dedupNames]
    constructor
    · intro h
      rcases List.mem_cons.mp h with rfl | h
      · exact List.mem_cons_self _ _
      · exact List.mem_cons_of_mem _ (ih.mp (List.mem_of_mem_filter h))
    · intro h
      rcases List.mem_cons.mp h with rfl | h
      · exact List.mem_cons_self _ _
      · by_cases hq : p = q
        · exact hq ▸ List.mem_cons_self _ _
        · refine List.mem_cons_of_mem _ (List.mem_filter.mpr ⟨ih.mpr h, by simpa using hq⟩)

theorem dedupNames_nodup (l : List String) : (dedupNames l).Nodup := by
  induction l with
  | nil => simp [dedupNames]
  | cons q rest ih =>
    rw [dedupNames]
    refine List.nodup_cons.mpr ⟨?_, List.Nodup.filter _ ih⟩
    intro h
    have := (List.mem_filter.mp h).2
    simp at this

theorem nodup_map_of_pairwise {α β : Type} (f : α → β) {l : List α}
    (h : l.Pairwise (fun a b => f a ≠ f b)) : (l.map f).Nodup := by
  induction l with
  | nil => simp
  | cons a rest ih =>
    rcases List.pairwise_cons.mp h with ⟨ha, hrest⟩
    rw [List.map_cons]
    refine List.nodup_cons.mpr ⟨?_, ih hrest⟩
    intro hmem
    rcases List.mem_map.mp hmem with ⟨b, hb, heq⟩
    exact ha b hb heq.symm

theorem unpackEdge_some {g : Graph} {e : String × String × Nat}
    {b : String × String × Nat} (h : unpackEdge g e = some b) :
    b = (e.1, e.2.1, g.weightOf e.1 e.2.1) ∧ e.1 ≠ e.2.1 := by
  rw [unpackEdge] at h
  split at h
  · exact absurd h (by simp)
  · exact ⟨(Option.some_inj.mp h).symm, by assumption⟩

theorem mapOpt_some_rel {α β : Type} (f : α → Option β) :
    ∀ {l : List α} {bs : List β}, mapOpt f l = some bs →
      List.Forall₂ (fun a b => f a = some b) l bs := by
  intro l
  induction l with
  | nil =>
    intro bs h
    rw [mapOpt] at h
    rw [← Option.some_inj.mp h]
    exact List.Forall₂.nil
  | cons a rest ih =>
    intro bs h
    rw [mapOpt] at h
    cases hfa : f a with
    | none => rw [hfa] at h; simp at h
    | some b =>
      rw [hfa] at h
      cases hrest : mapOpt f rest with
      | none => rw [hrest] at h; simp at h
      | some bs' =>
        rw [hrest] at h
        simp only at h
        rw [← Option.some_inj.mp h]
        exact List.Forall₂.cons hfa (ih hrest)

theorem forall2_unpack_keys {g : Graph} :
    ∀ {l bs : List (String × String × Nat)},
      List.Forall₂ (fun a b => unpackEdge g a = some b) l bs →
      bs.map Graph.edgeKey = l.map Graph.edgeKey := by
  intro l bs h
  induction h with
  | nil => rfl
  | cons ha hrest ih =>
    rw [List.map_cons, List.map_cons, ih]
    rcases unpackEdge_some ha with ⟨rfl, -⟩
    rfl

theorem forall2_mem_exists {α β : Type} {r : α → β → Prop} :
    ∀ {l : List α} {bs : List β}, List.Forall₂ r l bs →
      ∀ b ∈ bs, ∃ a ∈ l, r a b := by
  intro l bs h
  induction h with
  | nil => simp
  | cons ha hrest ih =>
    intro b hb
    rcases List.mem_cons.mp hb with rfl | hb
    · exact ⟨_, List.mem_cons_self _ _, ha⟩
    · rcases ih b hb with ⟨a, ha', hr⟩
      exact ⟨a, List.mem_cons_of_mem _ ha', hr⟩

theorem get_edge_changes_inv {gt gt1 : Graph}
    {lost gained : List (String × String × Nat)}
    (h : get_edge_changes gt gt1 = some (lost, gained)) :
    ∃ lost0 gained0,
      mapOpt (unpackEdge gt)
        ((dedupKeys gt.edges).filter (fun e => ¬ Graph.edgeKey e ∈ gt1.edgeSet)) = some lost0 ∧
      mapOpt (unpackEdge gt1)
        ((dedupKeys gt1.edges).filter (fun e => ¬ Graph.edgeKey e ∈ gt.edgeSet)) = some gained0 ∧
      lost = sortDesc (fun e => e.2.2) lost0 ∧ gained = sortDesc (fun e => e.2.2) gained0 := by
  rw [get_edge_changes] at h
  cases h1 : mapOpt (unpackEdge gt)
      ((dedupKeys gt.edges).filter (fun e => ¬ Graph.edgeKey e ∈ gt1.edgeSet)) with
  | none => rw [h1] at h; simp at h
  | some lost0 =>
    cases h2 : mapOpt (unpackEdge gt1)
        ((dedupKeys gt1.edges).filter (fun e => ¬ Graph.edgeKey e ∈ gt.edgeSet)) with
    | none => rw [h1, h2] at h; simp at h
    | some gained0 =>
      rw [h1, h2] at h
      simp only [Option.some_inj] at h
      exact ⟨lost0, gained0, rfl, rfl, (congrArg Prod.fst h).symm, (congrArg Prod.snd h).symm⟩

theorem filtered_keys_toFinset (ga gb : Graph) :
    ((((dedupKeys ga.edges).filter
        (fun e => ¬ Graph.edgeKey e ∈ gb.edgeSet)).map Graph.edgeKey).toFinset =
      ga.edgeSet \ gb.edgeSet) ∧
    (((dedupKeys ga.edges).filter
        (fun e => ¬ Graph.edgeKey e ∈ gb.edgeSet)).map Graph.edgeKey).Nodup := by
  constructor
  · ext fs
    simp only [List.mem_toFinset, List.mem_map, List.mem_filter, Finset.mem_sdiff,
      decide_not, Bool.not_eq_true', decide_eq_false_iff_not]
    constructor
    · rintro ⟨e, ⟨hd, hout⟩, rfl⟩
      exact ⟨(mem_edgeSet_iff ga _).mpr ⟨e, mem_dedupKeys_sub hd, rfl⟩, hout⟩
    · rintro ⟨hin, hout⟩
      rcases (dedupKeys_covers ga.edges fs).mpr ((mem_edgeSet_iff ga fs).mp hin) with ⟨e, he, rfl⟩
      exact ⟨e, ⟨he, hout⟩, rfl⟩
  · exact nodup_map_of_pairwise _ (List.Pairwise.filter _ (dedupKeys_key_nodup ga.edges))

/-! ### C4: the four ranked diff lists and the truncated record -/

/-- C4: `players_left`/`players_joined` are exactly the two node-set
differences with each entry's `matches` taken from its origin graph;
`edges_lost`/`edges_gained` are exactly the two unordered-edge-set
differences with each entry's `weight` taken from the graph the edge was
in; each list is sorted descending by its key; and the persisted
comparison record keeps exactly the first 10 entries of each list.
(The hypothesis is that `get_edge_changes` returned — by C9 it raises
instead exactly when a self-loop lies in one graph only.) -/
theorem season_changes_exact (gt gt1 : Graph) (club s1 s2 : String)
    (lost gained : List (String × String × Nat))
    (hsucc : get_edge_changes gt gt1 = some (lost, gained)) :
    (((get_player_changes gt gt1).1.map Prod.fst).toFinset = gt.nodeSet \ gt1.nodeSet ∧
     ((get_player_changes gt gt1).1.map Prod.fst).Nodup ∧
     (∀ pm ∈ (get_player_changes gt gt1).1, pm.2 = gt.matchesOf pm.1) ∧
     (get_player_changes gt gt1).1.Pairwise (fun a b => b.2 ≤ a.2)) ∧
    (((get_player_changes gt gt1).2.map Prod.fst).toFinset = gt1.nodeSet \ gt.nodeSet ∧
     ((get_player_changes gt gt1).2.map Prod.fst).Nodup ∧
     (∀ pm ∈ (get_player_changes gt gt1).2, pm.2 = gt1.matchesOf pm.1) ∧
     (get_player_changes gt gt1).2.Pairwise (fun a b => b.2 ≤ a.2)) ∧
    ((lost.map Graph.edgeKey).toFinset = gt.edgeSet \ gt1.edgeSet ∧
     (lost.map Graph.edgeKey).Nodup ∧
     (∀ e ∈ lost, e.1 ≠ e.2.1 ∧ e.2.2 = gt.weightOf e.1 e.2.1) ∧
     lost.Pairwise (fun a b => b.2.2 ≤ a.2.2)) ∧
    ((gained.map Graph.edgeKey).toFinset = gt1.edgeSet \ gt.edgeSet ∧
     (gained.map Graph.edgeKey).Nodup ∧
     (∀ e ∈ gained, e.1 ≠ e.2.1 ∧ e.2.2 = gt1.weightOf e.1 e.2.1) ∧
     gained.Pairwise (fun a b => b.2.2 ≤ a.2.2)) ∧
    process_season_pair club s1 s2 gt gt1 = some
      { club := club
        season_from := s1
        season_to := s2
        v_score := pyRound3 (calculate_v_dynamic_score gt gt1)
        e_score := pyRound3 (calculate_e_dynamic_score gt gt1)
        total_players_t := gt.nodes.length
        total_players_t1 := gt1.nodes.length
        total_edges_t := gt.edges.length
        total_edges_t1 := gt1.edges.length
        players_left := (get_player_changes gt gt1).1.take 10
        players_joined := (get_player_changes gt gt1).2.take 10
        edges_lost := lost.take 10
        edges_gained := gained.take 10 } := by
  have hplayers : ∀ (ga gb : Graph),
      let base := ((dedupNames (ga.nodes.map Prod.fst)).filter
        (fun p => ¬ p ∈ gb.nodeSet)).map (fun p => (p, ga.matchesOf p))
      ((sortDesc (fun x => x.2) base).map Prod.fst).toFinset = ga.nodeSet \ gb.nodeSet ∧
      ((sortDesc (fun x => x.2) base).map Prod.fst).Nodup ∧
      (∀ pm ∈ sortDesc (fun x => x.2) base, pm.2 = ga.matchesOf pm.1) ∧
      (sortDesc (fun x => x.2) base).Pairwise (fun a b => b.2 ≤ a.2) := by
    intro ga gb
    set fl := (dedupNames (ga.nodes.map Prod.fst)).filter (fun p => ¬ p ∈ gb.nodeSet) with hfl
    set base := fl.map (fun p => (p, ga.matchesOf p)) with hbase
    have hperm : List.Perm ((sortDesc (fun x => x.2) base).map Prod.fst) (base.map Prod.fst) :=
      List.Perm.map _ (sortDesc_perm _ base)
    have hbase_fst : base.map Prod.fst = fl := by
      rw [hbase, List.map_map]
      exact List.map_id fl
    have hfl_nodup : fl.Nodup := List.Nodup.filter _ (dedupNames_nodup _)
    have hfl_fin : fl.toFinset = ga.nodeSet \ gb.nodeSet := by
      ext x
      simp only [hfl, List.mem_toFinset, List.mem_filter, Finset.mem_sdiff, mem_dedupNames,
        decide_not, Bool.not_eq_true', decide_eq_false_iff_not]
      constructor
      · rintro ⟨hin, hout⟩
        exact ⟨List.mem_toFinset.mpr hin, hout⟩
      · rintro ⟨hin, hout⟩
        exact ⟨List.mem_toFinset.mp hin, hout⟩
    refine ⟨?_, ?_, ?_, ?_⟩
    · rw [List.toFinset_eq_of_perm _ _ hperm, hbase_fst, hfl_fin]
    · rw [List.Perm.nodup_iff hperm, hbase_fst]
      exact hfl_nodup
    · intro pm hpm
      have hpm' : pm ∈ base := (List.Perm.mem_iff (sortDesc_perm _ base)).mp hpm
      rcases List.mem_map.mp hpm' with ⟨p, -, rfl⟩
      rfl
    · exact sortDesc_sorted _ base
  have hedges : ∀ (ga gb : Graph) (out0 out : List (String × String × Nat)),
      mapOpt (unpackEdge ga)
        ((dedupKeys ga.edges).filter (fun e => ¬ Graph.edgeKey e ∈ gb.edgeSet)) = some out0 →
      out = sortDesc (fun e => e.2.2) out0 →
      (out.map Graph.edgeKey).toFinset = ga.edgeSet \ gb.edgeSet ∧
      (out.map Graph.edgeKey).Nodup ∧
      (∀ e ∈ out, e.1 ≠ e.2.1 ∧ e.2.2 = ga.weightOf e.1 e.2.1) ∧
      out.Pairwise (fun a b => b.2.2 ≤ a.2.2) := by
    intro ga gb out0 out hmap hsort
    have hrel := mapOpt_some_rel _ hmap
    have hkeys := forall2_unpack_keys hrel
    have hperm : List.Perm (out.map Graph.edgeKey) (out0.map Graph.edgeKey) := by
      rw [hsort]
      exact List.Perm.map _ (sortDesc_perm _ out0)
    obtain ⟨hfin, hnd⟩ := filtered_keys_toFinset ga gb
    refine ⟨?_, ?_, ?_, ?_⟩
    · rw [List.toFinset_eq_of_perm _ _ hperm, hkeys, hfin]
    · rw [List.Perm.nodup_iff hperm, hkeys]
      exact hnd
    · intro e he
      have he0 : e ∈ out0 := by
        rw [hsort] at he
        exact (List.Perm.mem_iff (sortDesc_perm _ out0)).mp he
      rcases forall2_mem_exists hrel e he0 with ⟨a, -, ha⟩
      rcases unpackEdge_some ha with ⟨rfl, hne⟩
      exact ⟨hne, rfl⟩
    · rw [hsort]
      exact sortDesc_sorted _ out0
  rcases get_edge_changes_inv hsucc with ⟨lost0, gained0, h1, h2, hs1, hs2⟩
  refine ⟨hplayers gt gt1, hplayers gt1 gt, hedges gt gt1 lost0 lost h1 hs1,
    hedges gt1 gt gained0 gained h2 hs2, ?_⟩
  rw [process_season_pair, hsucc]

/-- Witness for C4 at the specification's worked example (§8). -/
theorem season_changes_exact_witness :
    get_edge_changes (Graph.mk [("A", 3), ("B", 2), ("C", 1)] [("A", "B", 2)])
        (Graph.mk [("A", 1), ("C", 1), ("D", 1)] [("A", "C", 1)]) =
      some ([("A", "B", 2)], [("A", "C", 1)]) ∧
    ((get_player_changes (Graph.mk [("A", 3), ("B", 2), ("C", 1)] [("A", "B", 2)])
        (Graph.mk [("A", 1), ("C", 1), ("D", 1)] [("A", "C", 1)])).1.map Prod.fst).toFinset =
      (Graph.mk [("A", 3), ("B", 2), ("C", 1)] [("A", "B", 2)]).nodeSet \
        (Graph.mk [("A", 1), ("C", 1), ("D", 1)] [("A", "C", 1)]).nodeSet :=
  ⟨by decide,
    (season_changes_exact (Graph.mk [("A", 3), ("B", 2), ("C", 1)] [("A", "B", 2)])
      (Graph.mk [("A", 1), ("C", 1), ("D", 1)] [("A", "C", 1)]) "c" "s1" "s2"
      [("A", "B", 2)] [("A", "C", 1)] (by decide)).1.1⟩

end FootballGraphs

namespace FootballGraphs

/-! ### String-level machinery for the export round trip (C7) -/

theorem dropWhile_append_singleton_not (p : Char → Bool) (l : List Char) (c : Char)
    (hc : p c = false) : List.dropWhile p (l ++ [c]) = List.dropWhile p l ++ [c] := by
  induction l with
  | nil => simp [List.dropWhile, hc]
  | cons a rest ih =>
    rw [List.cons_append, List.dropWhile_cons, List.dropWhile_cons]
    by_cases ha : p a = true
    · rw [if_pos ha, if_pos ha, ih]
    · rw [if_neg ha, if_neg ha, List.cons_append]

theorem dropTrailWS_cons_head (c : Char) (s : List Char) (hc : isWS c = false) :
    dropTrailWS (c :: s) = c :: dropTrailWS s := by
  rw [dropTrailWS, dropTrailWS, List.reverse_cons, dropWhile_append_singleton_not _ _ _ hc,
    List.reverse_append]
  rfl

theorem dropTrailWS_append_ws (s : List Char) (c : Char) (hc : isWS c = true) :
    dropTrailWS (s ++ [c]) = dropTrailWS s := by
  rw [dropTrailWS, dropTrailWS, List.reverse_append, List.reverse_singleton,
    List.singleton_append, List.dropWhile_cons, if_pos hc]

theorem dropTrailWS_append_not_ws (s : List Char) (c : Char) (hc : isWS c = false) :
    dropTrailWS (s ++ [c]) = s ++ [c] := by
  rw [dropTrailWS, List.reverse_append, List.reverse_singleton, List.singleton_append,
    List.dropWhile_cons, if_neg (by simp [hc])]
  simp

theorem stripChars_cons_ws (c : Char) (s : List Char) (hc : isWS c = true) :
    stripChars (c :: s) = stripChars s := by
  rw [stripChars, stripChars, List.dropWhile_cons, if_pos hc]

theorem stripChars_cons_not_ws (c : Char) (s : List Char) (hc : isWS c = false) :
    stripChars (c :: s) = c :: dropTrailWS s := by
  rw [stripChars, List.dropWhile_cons, if_neg (by simp [hc]), dropTrailWS_cons_head _ _ hc]

theorem dropWhile_head_false (p : Char → Bool) (l : List Char) :
    ∀ {a : Char} {t : List Char}, List.dropWhile p l = a :: t → p a = false := by
  induction l with
  | nil => intro a t h; simp [List.dropWhile] at h
  | cons b bs ih =>
    intro a t h
    rw [List.dropWhile_cons] at h
    by_cases hb : p b = true
    · rw [if_pos hb] at h
      exact ih h
    · rw [if_neg hb] at h
      injection h with h1 h2
      subst h1
      simpa using hb

theorem dropWhile_append_of_ne_nil (l : List Char) (c : Char)
    (hne : List.dropWhile isWS l ≠ []) :
    List.dropWhile isWS (l ++ [c]) = List.dropWhile isWS l ++ [c] := by
  induction l with
  | nil => simp at hne
  | cons b bs ih =>
    rw [List.cons_append, List.dropWhile_cons, List.dropWhile_cons]
    by_cases hb : isWS b = true
    · rw [if_pos hb, if_pos hb]
      rw [List.dropWhile_cons, if_pos hb] at hne
      exact ih hne
    · rw [if_neg hb, if_neg hb, List.cons_append]

theorem stripChars_append_ws (s : List Char) (c : Char) (hc : isWS c = true) :
    stripChars (s ++ [c]) = stripChars s := by
  rw [stripChars, stripChars]
  by_cases h : List.dropWhile isWS s = []
  · have hall : ∀ x ∈ s, isWS x = true := List.dropWhile_eq_nil_iff.mp h
    have hconc : List.dropWhile isWS (s ++ [c]) = [] := by
      rw [List.dropWhile_eq_nil_iff]
      intro x hx
      rcases List.mem_append.mp hx with hx | hx
      · exact hall x hx
      · rcases List.mem_singleton.mp hx with rfl
        exact hc
    rw [hconc, h]
  · rw [dropWhile_append_of_ne_nil s c h, dropTrailWS_append_ws _ _ hc]

end FootballGraphs

namespace FootballGraphs

theorem dropTrailWS_decomp (X : List Char) :
    X = dropTrailWS X ++ (List.takeWhile isWS X.reverse).reverse := by
  have h := List.takeWhile_append_dropWhile (p := isWS) (l := X.reverse)
  calc X = X.reverse.reverse := (List.reverse_reverse X).symm
    _ = (List.takeWhile isWS X.reverse ++ List.dropWhile isWS X.reverse).reverse := by rw [h]
    _ = dropTrailWS X ++ (List.takeWhile isWS X.reverse).reverse := by
        rw [List.reverse_append]; rfl

theorem stripChars_idem (s : List Char) : stripChars (stripChars s) = stripChars s := by
  cases h : stripChars s with
  | nil => rfl
  | cons a t =>
    have hX : stripChars s = dropTrailWS (List.dropWhile isWS s) := rfl
    have hdt : dropTrailWS (List.dropWhile isWS s) = a :: t := by rw [← hX, h]
    have hdecomp := dropTrailWS_decomp (List.dropWhile isWS s)
    rw [hdt] at hdecomp
    have hheadX : isWS a = false := by
      apply dropWhile_head_false isWS s
      rw [hdecomp]
      rfl
    have hrev : List.dropWhile isWS (List.dropWhile isWS s).reverse = (a :: t).reverse := by
      rw [dropTrailWS] at hdt
      rw [← hdt, List.reverse_reverse]
    rcases List.eq_nil_or_concat t with rfl | ⟨t2, c, rfl⟩
    · rw [stripChars_cons_not_ws a [] hheadX]
      rfl
    · simp only [List.concat_eq_append] at hrev ⊢
      have hshape : List.dropWhile isWS (List.dropWhile isWS s).reverse =
          c :: (t2.reverse ++ [a]) := by
        rw [hrev]
        simp
      have hc : isWS c = false := dropWhile_head_false isWS _ hshape
      rw [stripChars_cons_not_ws a _ hheadX, dropTrailWS_append_not_ws t2 c hc]

theorem stripChars_no_ws (s : List Char) (h : ∀ c ∈ s, isWS c = false) :
    stripChars s = s := by
  have hdw : List.dropWhile isWS s = s := by
    cases s with
    | nil => rfl
    | cons a t =>
      rw [List.dropWhile_cons, if_neg (by simp [h a (List.mem_cons_self a t)])]
  have hdw2 : List.dropWhile isWS s.reverse = s.reverse := by
    cases hrev : s.reverse with
    | nil => rfl
    | cons a t =>
      have ha : a ∈ s := by
        rw [← List.mem_reverse, hrev]
        exact List.mem_cons_self _ _
      rw [List.dropWhile_cons, if_neg (by simp [h a ha])]
  rw [stripChars, hdw, dropTrailWS, hdw2, List.reverse_reverse]

theorem splitChar_ne_nil (c : Char) (s : List Char) : splitChar c s ≠ [] := by
  cases s with
  | nil => simp [splitChar]
  | cons a rest =>
    by_cases hac : a = c <;> simp [splitChar, hac]

theorem splitChar_not_mem {c : Char} : ∀ {s : List Char}, c ∉ s → splitChar c s = [s] := by
  intro s
  induction s with
  | nil => intro _; rfl
  | cons a rest ih =>
    intro h
    have hrest : splitChar c rest = [rest] := ih (fun hm => h (List.mem_cons_of_mem _ hm))
    have hac : ¬ a = c := fun hc => h (hc ▸ List.mem_cons_self a rest)
    simp [splitChar, hrest, hac]

theorem splitChar_append (c : Char) : ∀ (a b : List Char), c ∉ a →
    splitChar c (a ++ c :: b) = a :: splitChar c b := by
  intro a
  induction a with
  | nil =>
    intro b _
    show splitChar c (c :: b) = [] :: splitChar c b
    simp [splitChar]
  | cons x a ih =>
    intro b h
    have hxc : ¬ x = c := fun hc => h (hc ▸ List.mem_cons_self x a)
    have ih2 := ih b (fun hm => h (List.mem_cons_of_mem _ hm))
    show splitChar c (x :: (a ++ c :: b)) = (x :: a) :: splitChar c b
    cases hsb : splitChar c b with
    | nil => exact absurd hsb (splitChar_ne_nil c b)
    | cons y t =>
      simp [splitChar, hxc, ih2, hsb]

theorem startsWithL_refl_append : ∀ (p t : List Char), startsWithL (p ++ t) p = true := by
  intro p
  induction p with
  | nil =>
    intro t
    show startsWithL t [] = true
    cases t <;> rfl
  | cons a p ih =>
    intro t
    simp [startsWithL, ih]

theorem charVal_digitToChar (d : Nat) (hd : d < 10) : (digitToChar d).toNat - 48 = d := by
  interval_cases d <;> decide

theorem isDigitCh_digitToChar (d : Nat) (hd : d < 10) : isDigitCh (digitToChar d) = true := by
  interval_cases d <;> decide

theorem isWS_of_digit (c : Char) (h : isDigitCh c = true) : isWS c = false := by
  rw [isDigitCh, Bool.and_eq_true, decide_eq_true_eq, decide_eq_true_eq] at h
  by_contra hws
  rw [Bool.not_eq_false] at hws
  have hcc : c = ' ' ∨ c = '\t' ∨ c = '\n' ∨ c = '\r' := by
    simp [isWS] at hws
    tauto
  rcases hcc with h1 | h1 | h1 | h1 <;> (subst h1; exact absurd h (by decide))

theorem natToChars_ne_nil (n : Nat) : natToChars n ≠ [] := by
  rw [natToChars]
  split
  · simp
  · rename_i h
    have hd : Nat.digits 10 n ≠ [] := Nat.digits_ne_nil_iff_ne_zero.mpr h
    simp [hd]

theorem natToChars_digits (n : Nat) : ∀ c ∈ natToChars n, isDigitCh c = true := by
  rw [natToChars]
  split
  · intro c hc
    rcases List.mem_singleton.mp hc with rfl
    decide
  · intro c hc
    rw [List.mem_reverse] at hc
    rcases List.mem_map.mp hc with ⟨d, hd, rfl⟩
    exact isDigitCh_digitToChar d (Nat.digits_lt_base (by norm_num) hd)

theorem digitsVal_append (xs : List Char) (c : Char) :
    digitsVal (xs ++ [c]) = digitsVal xs * 10 + (c.toNat - 48) := by
  rw [digitsVal, digitsVal, List.foldl_append]
  rfl

theorem digitsVal_natToChars (n : Nat) : digitsVal (natToChars n) = n := by
  rw [natToChars]
  split
  · rename_i h
    subst h
    decide
  · have key : ∀ (ds : List Nat), (∀ d ∈ ds, d < 10) →
        digitsVal ((ds.map digitToChar).reverse) = Nat.ofDigits 10 ds := by
      intro ds
      induction ds with
      | nil =>
        intro _
        simp [digitsVal, Nat.ofDigits_nil]
      | cons d ds ih =>
        intro hlt
        rw [List.map_cons, List.reverse_cons, digitsVal_append, Nat.ofDigits_cons,
          ih (fun x hx => hlt x (List.mem_cons_of_mem _ hx)),
          charVal_digitToChar d (hlt d (List.mem_cons_self _ _))]
        have h10 : Nat.ofDigits 10 ds = Nat.ofDigits 10 ds := rfl
        omega
    rw [key (Nat.digits 10 n) (fun d hd => Nat.digits_lt_base (by norm_num) hd),
      Nat.ofDigits_digits]

theorem natToChars_no_ws (n : Nat) : ∀ c ∈ natToChars n, isWS c = false :=
  fun c hc => isWS_of_digit c (natToChars_digits n c hc)

theorem pyNat_natToChars_padded (n : Nat) :
    pyNat (' ' :: (natToChars n ++ [' '])) = some n := by
  have hstrip : stripChars (' ' :: (natToChars n ++ [' '])) = natToChars n := by
    rw [stripChars_cons_ws _ _ (by decide), stripChars_append_ws _ _ (by decide),
      stripChars_no_ws _ (natToChars_no_ws n)]
  rw [pyNat]
  simp only [hstrip]
  have hcond : ((natToChars n).isEmpty || !(natToChars n).all isDigitCh) = false := by
    rw [Bool.or_eq_false_iff]
    constructor
    · simp [List.isEmpty_iff, natToChars_ne_nil n]
    · rw [Bool.not_eq_false', List.all_eq_true]
      exact natToChars_digits n
  rw [hcond]
  simp [digitsVal_natToChars]

end FootballGraphs

namespace FootballGraphs

/-! ### Provenance of names in pipeline graphs (C7) -/

theorem mem_flushed {st : LoadState} {r : MatchRec} (h : r ∈ st.flushed) :
    r ∈ st.done ∨ st.cur = some r := by
  rw [LoadState.flushed] at h
  rcases List.mem_append.mp h with h | h
  · exact Or.inl h
  · cases hc : st.cur with
    | none => rw [hc] at h; simp at h
    | some c =>
      rw [hc] at h
      exact Or.inr (congrArg some (List.eq_of_mem_replicate h).symm)

theorem parsePlayers_trimmed (line : List Char) :
    ∀ p ∈ parsePlayers line, stripChars p.data = p.data := by
  intro p hp
  rcases List.mem_map.mp hp with ⟨cs, -, rfl⟩
  exact stripChars_idem cs

theorem load_data_trimmed (lines : List String) :
    ∀ r ∈ load_data lines, ∀ p ∈ r.players, stripChars p.data = p.data := by
  rw [load_data]
  have hmain := foldl_preserve loadStep
    (fun st => (∀ r ∈ st.done, ∀ p ∈ r.players, stripChars p.data = p.data) ∧
      (∀ c, st.cur = some c → ∀ p ∈ c.players, stripChars p.data = p.data))
    lines ?_ ⟨[], none, 0⟩ ⟨by simp, by simp⟩
  · intro r hr
    rcases mem_flushed hr with h | h
    · exact hmain.1 r h
    · exact hmain.2 r h
  · intro st raw _ hst
    obtain ⟨h1, h2⟩ := hst
    rw [loadStep]
    split
    · exact ⟨h1, h2⟩
    · split
      · refine ⟨?_, ?_⟩
        · intro r hr
          rcases mem_flushed hr with h | h
          · exact h1 r h
          · exact h2 r h
        · intro c hc p hp
          injection hc with hc
          rw [← hc] at hp
          simp [parseMatchLine] at hp
      · split
        · cases hcur : st.cur with
          | none => exact ⟨h1, h2⟩
          | some c =>
            refine ⟨h1, ?_⟩
            intro c2 hc2 p hp
            injection hc2 with hc2
            rw [← hc2] at hp
            exact parsePlayers_trimmed _ p hp
        · exact ⟨h1, h2⟩


theorem names_bumpNode_mono (p q : String) (ns : List (String × Nat))
    (h : q ∈ ns.map Prod.fst) : q ∈ (bumpNode p ns).map Prod.fst := by
  induction ns with
  | nil => simp at h
  | cons n rest ih =>
    rw [bumpNode]
    rcases (by simpa using h : q = n.1 ∨ q ∈ rest.map Prod.fst) with h1 | h1
    · split
      · simp [h1]
      · simp [h1]
    · split
      · simpa using Or.inr h1
      · rw [List.map_cons]
        exact List.mem_cons.mpr (Or.inr (ih h1))

theorem self_mem_bumpNode (p : String) (ns : List (String × Nat)) :
    p ∈ (bumpNode p ns).map Prod.fst := by
  induction ns with
  | nil => simp [bumpNode]
  | cons n rest ih =>
    rw [bumpNode]
    split
    · rename_i h
      simp [h]
    · rw [List.map_cons]
      exact List.mem_cons.mpr (Or.inr ih)

theorem names_addPlayers_old (g : Graph) (l : List String) (q : String)
    (h : q ∈ g.nodes.map Prod.fst) : q ∈ (addPlayers g l).nodes.map Prod.fst := by
  induction l generalizing g with
  | nil => exact h
  | cons p rest ih =>
    rw [addPlayers_cons]
    exact ih { g with nodes := bumpNode p g.nodes } (names_bumpNode_mono p q g.nodes h)

theorem names_addPlayers_lineup (g : Graph) (l : List String) :
    ∀ q ∈ l, q ∈ (addPlayers g l).nodes.map Prod.fst := by
  induction l generalizing g with
  | nil => simp
  | cons p rest ih =>
    intro q hq
    rw [addPlayers_cons]
    rcases List.mem_cons.mp hq with rfl | hq
    · exact names_addPlayers_old _ rest q (self_mem_bumpNode q g.nodes)
    · exact ih _ q hq

theorem endpoints_addLineupEdges (l : List String) : ∀ (g : Graph),
    (∀ q ∈ l, q ∈ g.nodes.map Prod.fst) →
    (∀ e ∈ g.edges, e.1 ∈ g.nodes.map Prod.fst ∧ e.2.1 ∈ g.nodes.map Prod.fst) →
    ∀ e ∈ (addLineupEdges g l).edges,
      e.1 ∈ g.nodes.map Prod.fst ∧ e.2.1 ∈ g.nodes.map Prod.fst := by
  induction l with
  | nil => intro g _ h; exact h
  | cons p rest ih =>
    intro g hl h
    rw [addLineupEdges]
    have hinner := foldl_preserve (fun g q => { g with edges := bumpEdge p q g.edges })
      (fun g2 => g2.nodes = g.nodes ∧
        ∀ e ∈ g2.edges, e.1 ∈ g.nodes.map Prod.fst ∧ e.2.1 ∈ g.nodes.map Prod.fst)
      rest ?_ g ⟨rfl, h⟩
    · have hnodes := nodes_foldl_bumpEdge p rest g
      have hres := ih (rest.foldl (fun g q => { g with edges := bumpEdge p q g.edges }) g) ?_ ?_
      · intro e he
        rcases hres e he with ⟨ha, hb⟩
        rw [hnodes] at ha hb
        exact ⟨ha, hb⟩
      · intro q hq
        rw [hnodes]
        exact hl q (List.mem_cons_of_mem _ hq)
      · intro e he
        rcases hinner.2 e he with ⟨ha, hb⟩
        rw [hnodes]
        exact ⟨ha, hb⟩
    · intro g2 q hq hg2
      obtain ⟨hn, he⟩ := hg2
      refine ⟨hn, ?_⟩
      intro e hme
      rcases mem_bumpEdge_cases hme with hmem | ⟨e2, he2, rfl⟩ | rfl
      · exact he e hmem
      · exact he e2 he2
      · exact ⟨hl p (List.mem_cons_self _ _), hl q (List.mem_cons_of_mem _ hq)⟩

theorem build_graph_endpoints (ms : List MatchRec) :
    ∀ e ∈ (build_graph ms).edges,
      e.1 ∈ (build_graph ms).nodes.map Prod.fst ∧
      e.2.1 ∈ (build_graph ms).nodes.map Prod.fst := by
  rw [build_graph]
  refine foldl_preserve buildStep
    (fun g => ∀ e ∈ g.edges, e.1 ∈ g.nodes.map Prod.fst ∧ e.2.1 ∈ g.nodes.map Prod.fst)
    ms ?_ ⟨[], []⟩ (by simp)
  intro g r _ hg
  have hnodes : (buildStep g r).nodes = (addPlayers g r.players).nodes := by
    rw [buildStep, nodes_addLineupEdges]
  intro e he
  have hres := endpoints_addLineupEdges r.players (addPlayers g r.players)
    (names_addPlayers_lineup g r.players) ?_ e he
  · rw [hnodes]
    exact hres
  · intro e2 he2
    rw [edges_addPlayers] at he2
    rcases hg e2 he2 with ⟨ha, hb⟩
    exact ⟨names_addPlayers_old g r.players _ ha, names_addPlayers_old g r.players _ hb⟩

end FootballGraphs

namespace FootballGraphs

/-! ### `load_graph` step lemmas (C7) -/

theorem string_mk_data (s : String) : String.mk s.data = s := rfl

theorem loadGraphStep_skip (g : Graph) (raw : String)
    (h : startsWithL (stripChars raw.data) "EDGE".data = false) :
    loadGraphStep g raw = some g := by
  rw [loadGraphStep]
  simp [h]

theorem loadGraphStep_hash (g : Graph) (raw : String) (t : List Char)
    (h : stripChars raw.data = '#' :: t) :
    loadGraphStep g raw = some g := by
  apply loadGraphStep_skip
  rw [h, show ("EDGE".data) = 'E' :: "DGE".data from rfl, startsWithL]
  have hne : ¬ ('#' : Char) = 'E' := by decide
  simp [hne]

theorem loadGraphStep_blank (g : Graph) (raw : String)
    (h : stripChars raw.data = []) : loadGraphStep g raw = some g := by
  rw [loadGraphStep]
  simp [h]

theorem hasNode_iff (g : Graph) (p : String) :
    g.hasNode p = true ↔ p ∈ g.nodes.map Prod.fst := by
  rw [Graph.hasNode, List.any_eq_true]
  constructor
  · rintro ⟨n, hn, he⟩
    exact List.mem_map.mpr ⟨n, hn, by simpa using he⟩
  · intro h
    rcases List.mem_map.mp h with ⟨n, hn, he⟩
    exact ⟨n, hn, by simpa using he⟩

theorem lookupMatches_append_mem (ns : List (String × Nat)) (p : String) (m : Nat)
    (q : String) (h : q ∈ ns.map Prod.fst) :
    lookupMatches (ns ++ [(p, m)]) q = lookupMatches ns q := by
  induction ns with
  | nil => simp at h
  | cons n rest ih =>
    rw [List.cons_append, lookupMatches, lookupMatches]
    by_cases hn : n.1 = q
    · rw [if_pos hn, if_pos hn]
    · rw [if_neg hn, if_neg hn]
      refine ih ?_
      rcases (by simpa using h : q = n.1 ∨ q ∈ rest.map Prod.fst) with h1 | h1
      · exact absurd h1.symm hn
      · exact h1

theorem lookupMatches_append_not_mem (ns : List (String × Nat)) (p : String) (m : Nat)
    (q : String) (h : ¬ q ∈ ns.map Prod.fst) :
    lookupMatches (ns ++ [(p, m)]) q = if q = p then m else 0 := by
  induction ns with
  | nil =>
    show (if p = q then m else lookupMatches [] q) = _
    by_cases hq : q = p
    · simp [hq, lookupMatches]
    · rw [if_neg (fun hh => hq hh.symm), if_neg hq]
      rfl
  | cons n rest ih =>
    rw [List.cons_append, lookupMatches]
    have hn : ¬ n.1 = q := fun hh => h (by simp [← hh])
    rw [if_neg hn]
    exact ih (fun hh => h (by simp [hh]))

theorem edges_addNodeIfAbsent (g : Graph) (p : String) (m : Nat) :
    (addNodeIfAbsent g p m).edges = g.edges := by
  rw [addNodeIfAbsent]
  split <;> rfl

theorem nodeSet_addNodeIfAbsent (g : Graph) (p : String) (m : Nat) :
    (addNodeIfAbsent g p m).nodeSet = insert p g.nodeSet := by
  rw [addNodeIfAbsent]
  split
  · rename_i h
    have hp : p ∈ g.nodeSet := by
      rw [Graph.nodeSet, List.mem_toFinset]
      exact (hasNode_iff g p).mp h
    exact (Finset.insert_eq_self.mpr hp).symm
  · show ((g.nodes ++ [(p, m)]).map Prod.fst).toFinset = _
    rw [List.map_append, List.toFinset_append]
    show g.nodeSet ∪ {p} = _
    rw [Finset.union_comm]
    rfl

theorem matchesOf_addNodeIfAbsent_old (g : Graph) (p : String) (m : Nat) (q : String)
    (h : q ∈ g.nodes.map Prod.fst) :
    (addNodeIfAbsent g p m).matchesOf q = g.matchesOf q := by
  rw [addNodeIfAbsent]
  split
  · rfl
  · show lookupMatches (g.nodes ++ [(p, m)]) q = _
    exact lookupMatches_append_mem g.nodes p m q h

theorem matchesOf_addNodeIfAbsent_new (g : Graph) (p : String) (m : Nat)
    (h : ¬ p ∈ g.nodes.map Prod.fst) :
    (addNodeIfAbsent g p m).matchesOf p = m := by
  rw [addNodeIfAbsent, if_neg (by simpa [hasNode_iff] using h)]
  show lookupMatches (g.nodes ++ [(p, m)]) p = m
  rw [lookupMatches_append_not_mem g.nodes p m p h]
  simp

theorem names_addNodeIfAbsent_mono (g : Graph) (p : String) (m : Nat) (q : String)
    (h : q ∈ g.nodes.map Prod.fst) : q ∈ (addNodeIfAbsent g p m).nodes.map Prod.fst := by
  rw [addNodeIfAbsent]
  split
  · exact h
  · show q ∈ (g.nodes ++ [(p, m)]).map Prod.fst
    rw [List.map_append]
    exact List.mem_append.mpr (Or.inl h)

theorem self_mem_addNodeIfAbsent (g : Graph) (p : String) (m : Nat) :
    p ∈ (addNodeIfAbsent g p m).nodes.map Prod.fst := by
  rw [addNodeIfAbsent]
  split
  · rename_i h
    exact (hasNode_iff g p).mp h
  · show p ∈ (g.nodes ++ [(p, m)]).map Prod.fst
    rw [List.map_append]
    refine List.mem_append.mpr (Or.inr ?_)
    simp

theorem setEdge_of_absent (u v : String) (w : Nat) (es : List (String × String × Nat))
    (h : ∀ f ∈ es, sameEdge u v f = false) : setEdge u v w es = es ++ [(u, v, w)] := by
  induction es with
  | nil => rfl
  | cons e rest ih =>
    rw [setEdge, if_neg (by simp [h e (List.mem_cons_self _ _)]), List.cons_append,
      ih (fun f hf => h f (List.mem_cons_of_mem _ hf))]

theorem pipe_not_mem_natToChars (n : Nat) : ¬ ('|' : Char) ∈ natToChars n := by
  intro h
  exact absurd (natToChars_digits n _ h) (by decide)

theorem pyNat_natToChars_lead (n : Nat) : pyNat (' ' :: natToChars n) = some n := by
  have hstrip : stripChars (' ' :: natToChars n) = natToChars n := by
    rw [stripChars_cons_ws _ _ (by decide), stripChars_no_ws _ (natToChars_no_ws n)]
  rw [pyNat]
  simp only [hstrip]
  have hcond : ((natToChars n).isEmpty || !(natToChars n).all isDigitCh) = false := by
    rw [Bool.or_eq_false_iff]
    constructor
    · simp [List.isEmpty_iff, natToChars_ne_nil n]
    · rw [Bool.not_eq_false', List.all_eq_true]
      exact natToChars_digits n
  rw [hcond]
  simp [digitsVal_natToChars]

end FootballGraphs

namespace FootballGraphs

theorem natStr_data (n : Nat) : (natStr n).data = natToChars n := rfl

theorem stripChars_shape (a : Char) (mid : List Char) (c : Char)
    (ha : isWS a = false) (hc : isWS c = false) :
    stripChars (a :: (mid ++ [c])) = a :: (mid ++ [c]) := by
  rw [stripChars_cons_not_ws a _ ha, dropTrailWS_append_not_ws mid c hc]

set_option maxHeartbeats 1600000 in
theorem loadGraphStep_edgeLine (R G : Graph) (e : String × String × Nat)
    (hu : stripChars e.1.data = e.1.data) (hv : stripChars e.2.1.data = e.2.1.data)
    (hup : ¬ ('|' : Char) ∈ e.1.data) (hvp : ¬ ('|' : Char) ∈ e.2.1.data) :
    loadGraphStep R (edgeLineFor G e) = some
      { addNodeIfAbsent (addNodeIfAbsent R e.1 (G.matchesOf e.1)) e.2.1 (G.matchesOf e.2.1) with
        edges := setEdge e.1 e.2.1 e.2.2
          (addNodeIfAbsent (addNodeIfAbsent R e.1 (G.matchesOf e.1)) e.2.1
            (G.matchesOf e.2.1)).edges } := by
  have hED : "EDGE ".data = 'E' :: "DGE ".data := rfl
  have hdata : (edgeLineFor G e).data =
      "EDGE ".data ++ ((e.1.data ++ [' ']) ++ '|' :: ((' ' :: (e.2.1.data ++ [' '])) ++
        '|' :: ((' ' :: (natToChars e.2.2 ++ [' '])) ++
        '|' :: ((' ' :: (natToChars (G.matchesOf e.1) ++ [' '])) ++
        '|' :: (' ' :: natToChars (G.matchesOf e.2.1)))))) := by
    rw [edgeLineFor]
    have hP : " | ".data = [' ', '|', ' '] := rfl
    simp [String.data_append, natStr_data, hP, List.append_assoc]
  obtain ⟨init, c, hconc⟩ :=
    (List.eq_nil_or_concat (natToChars (G.matchesOf e.2.1))).resolve_left
      (natToChars_ne_nil (G.matchesOf e.2.1))
  rw [List.concat_eq_append] at hconc
  have hcdig : isDigitCh c = true := by
    refine natToChars_digits (G.matchesOf e.2.1) c ?_
    rw [hconc]
    simp
  have hcws : isWS c = false := isWS_of_digit c hcdig
  have hshape : (edgeLineFor G e).data =
      'E' :: (("DGE ".data ++ ((e.1.data ++ [' ']) ++ '|' :: ((' ' :: (e.2.1.data ++ [' '])) ++
        '|' :: ((' ' :: (natToChars e.2.2 ++ [' '])) ++
        '|' :: ((' ' :: (natToChars (G.matchesOf e.1) ++ [' '])) ++
        '|' :: (' ' :: init)))))) ++ [c]) := by
    rw [hdata, hconc, hED]
    simp [List.append_assoc]
  have hstrip : stripChars (edgeLineFor G e).data = (edgeLineFor G e).data := by
    rw [hshape]
    exact stripChars_shape 'E' _ c (by decide) hcws
  have hsw : startsWithL (stripChars (edgeLineFor G e).data) "EDGE".data = true := by
    rw [hstrip, hdata]
    rw [show ("EDGE ".data) = "EDGE".data ++ [' '] from rfl, List.append_assoc]
    exact startsWithL_refl_append "EDGE".data _
  have hemp : (stripChars (edgeLineFor G e).data).isEmpty = false := by
    rw [hstrip, hshape]
    rfl
  have hdrop : (stripChars (edgeLineFor G e).data).drop 5 =
      (e.1.data ++ [' ']) ++ '|' :: ((' ' :: (e.2.1.data ++ [' '])) ++
        '|' :: ((' ' :: (natToChars e.2.2 ++ [' '])) ++
        '|' :: ((' ' :: (natToChars (G.matchesOf e.1) ++ [' '])) ++
        '|' :: (' ' :: natToChars (G.matchesOf e.2.1))))) := by
    rw [hstrip, hdata, show (5 : Nat) = ("EDGE ".data).length from rfl, List.drop_left]
  have hA1 : ¬ ('|' : Char) ∈ (e.1.data ++ [' ']) := by
    intro h
    rcases List.mem_append.mp h with h | h
    · exact hup h
    · simp at h
  have hB1 : ¬ ('|' : Char) ∈ (' ' :: (e.2.1.data ++ [' '])) := by
    intro h
    rcases List.mem_cons.mp h with h | h
    · exact absurd h (by decide)
    · rcases List.mem_append.mp h with h | h
      · exact hvp h
      · simp at h
  have hB2 : ∀ n : Nat, ¬ ('|' : Char) ∈ (' ' :: (natToChars n ++ [' '])) := by
    intro n h
    rcases List.mem_cons.mp h with h | h
    · exact absurd h (by decide)
    · rcases List.mem_append.mp h with h | h
      · exact pipe_not_mem_natToChars n h
      · simp at h
  have hB4 : ¬ ('|' : Char) ∈ (' ' :: natToChars (G.matchesOf e.2.1)) := by
    intro h
    rcases List.mem_cons.mp h with h | h
    · exact absurd h (by decide)
    · exact pipe_not_mem_natToChars _ h
  have hsplit : splitChar '|' ((e.1.data ++ [' ']) ++ '|' :: ((' ' :: (e.2.1.data ++ [' '])) ++
      '|' :: ((' ' :: (natToChars e.2.2 ++ [' '])) ++
      '|' :: ((' ' :: (natToChars (G.matchesOf e.1) ++ [' '])) ++
      '|' :: (' ' :: natToChars (G.matchesOf e.2.1)))))) =
      [e.1.data ++ [' '], ' ' :: (e.2.1.data ++ [' ']), ' ' :: (natToChars e.2.2 ++ [' ']),
       ' ' :: (natToChars (G.matchesOf e.1) ++ [' ']),
       ' ' :: natToChars (G.matchesOf e.2.1)] := by
    rw [splitChar_append '|' _ _ hA1, splitChar_append '|' _ _ hB1,
      splitChar_append '|' _ _ (hB2 e.2.2), splitChar_append '|' _ _ (hB2 (G.matchesOf e.1)),
      splitChar_not_mem hB4]
  have hp1 : stripChars (e.1.data ++ [' ']) = e.1.data := by
    rw [stripChars_append_ws _ _ (by decide), hu]
  have hp2 : stripChars (' ' :: (e.2.1.data ++ [' '])) = e.2.1.data := by
    rw [stripChars_cons_ws _ _ (by decide), stripChars_append_ws _ _ (by decide), hv]
  have hsw2 : startsWithL (edgeLineFor G e).data "EDGE".data = true := by
    rw [← hstrip]; exact hsw
  have hemp2 : (edgeLineFor G e).data.isEmpty = false := by
    rw [← hstrip]; exact hemp
  have hdrop2 : ((edgeLineFor G e).data).drop 5 =
      (e.1.data ++ [' ']) ++ '|' :: ((' ' :: (e.2.1.data ++ [' '])) ++
        '|' :: ((' ' :: (natToChars e.2.2 ++ [' '])) ++
        '|' :: ((' ' :: (natToChars (G.matchesOf e.1) ++ [' '])) ++
        '|' :: (' ' :: natToChars (G.matchesOf e.2.1))))) := by
    rw [← hstrip]; exact hdrop
  have hcond : ((edgeLineFor G e).data.isEmpty ||
      !startsWithL (edgeLineFor G e).data "EDGE".data) = false := by
    rw [hsw2, hemp2]; rfl
  rw [loadGraphStep]
  simp only [hstrip, hcond, Bool.false_eq_true, if_false, hdrop2, hsplit]
  simp only [List.getD_cons_zero, List.getD_cons_succ, List.length_cons, List.length_nil,
    pyNat_natToChars_padded, pyNat_natToChars_lead, hp1, hp2, string_mk_data]
  norm_num

end FootballGraphs

namespace FootballGraphs

theorem loadGraphAux_cons_some {g g2 : Graph} {l : String}
    (h : loadGraphStep g l = some g2) (ls : List String) :
    loadGraphAux g (l :: ls) = loadGraphAux g2 ls := by
  rw [loadGraphAux, h]

theorem loadGraphAux_append_some {g g2 : Graph} {l1 : List String}
    (h : loadGraphAux g l1 = some g2) (l2 : List String) :
    loadGraphAux g (l1 ++ l2) = loadGraphAux g2 l2 := by
  induction l1 generalizing g with
  | nil =>
    rw [loadGraphAux] at h
    rw [← Option.some_inj.mp h]
    rfl
  | cons l ls ih =>
    rw [List.cons_append, loadGraphAux]
    rw [loadGraphAux] at h
    cases hs : loadGraphStep g l with
    | none => rw [hs] at h; simp at h
    | some g1 =>
      rw [hs] at h
      exact ih h

theorem headers_skip (g : Graph) (n m : Nat) :
    loadGraphAux g ["# Graph for Java/GraphStream", "# Nodes: " ++ natStr n,
      "# Edges: " ++ natStr m, "",
      "# Format: EDGE player1 | player2 | weight | matches1 | matches2", ""] = some g := by
  have h1 : loadGraphStep g "# Graph for Java/GraphStream" = some g := by
    refine loadGraphStep_hash g _ (dropTrailWS " Graph for Java/GraphStream".data) ?_
    exact stripChars_cons_not_ws '#' _ (by decide)
  have h2 : loadGraphStep g ("# Nodes: " ++ natStr n) = some g := by
    refine loadGraphStep_hash g _ (dropTrailWS (" Nodes: ".data ++ natToChars n)) ?_
    have hd : ("# Nodes: " ++ natStr n).data = '#' :: (" Nodes: ".data ++ natToChars n) := by
      rw [String.data_append, natStr_data]
      rfl
    rw [hd]
    exact stripChars_cons_not_ws '#' _ (by decide)
  have h3 : loadGraphStep g ("# Edges: " ++ natStr m) = some g := by
    refine loadGraphStep_hash g _ (dropTrailWS (" Edges: ".data ++ natToChars m)) ?_
    have hd : ("# Edges: " ++ natStr m).data = '#' :: (" Edges: ".data ++ natToChars m) := by
      rw [String.data_append, natStr_data]
      rfl
    rw [hd]
    exact stripChars_cons_not_ws '#' _ (by decide)
  have h4 : loadGraphStep g "" = some g := loadGraphStep_blank g _ rfl
  have h5 : loadGraphStep g
      "# Format: EDGE player1 | player2 | weight | matches1 | matches2" = some g := by
    refine loadGraphStep_hash g _
      (dropTrailWS " Format: EDGE player1 | player2 | weight | matches1 | matches2".data) ?_
    exact stripChars_cons_not_ws '#' _ (by decide)
  rw [loadGraphAux_cons_some h1, loadGraphAux_cons_some h2, loadGraphAux_cons_some h3,
    loadGraphAux_cons_some h4, loadGraphAux_cons_some h5, loadGraphAux_cons_some h4]
  rfl

theorem names_addNodeIfAbsent_sub (g : Graph) (p : String) (m : Nat) (q : String)
    (h : q ∈ (addNodeIfAbsent g p m).nodes.map Prod.fst) :
    q ∈ g.nodes.map Prod.fst ∨ q = p := by
  rw [addNodeIfAbsent] at h
  split at h
  · exact Or.inl h
  · rw [List.map_append] at h
    rcases List.mem_append.mp h with h | h
    · exact Or.inl h
    · simp at h
      exact Or.inr h

theorem loadGraphAux_edgeLines (G : Graph) : ∀ (es : List (String × String × Nat)) (R : Graph),
    (∀ e ∈ es, stripChars e.1.data = e.1.data ∧ stripChars e.2.1.data = e.2.1.data ∧
      ¬ ('|' : Char) ∈ e.1.data ∧ ¬ ('|' : Char) ∈ e.2.1.data) →
    es.Pairwise (fun e f => Graph.edgeKey e ≠ Graph.edgeKey f) →
    (∀ e ∈ es, ∀ f ∈ R.edges, Graph.edgeKey f ≠ Graph.edgeKey e) →
    (∀ p ∈ R.nodes.map Prod.fst, R.matchesOf p = G.matchesOf p) →
    ∃ S, loadGraphAux R (es.map (edgeLineFor G)) = some S ∧
      S.edges = R.edges ++ es ∧
      S.nodeSet = R.nodeSet ∪ (es.map (fun e => e.1)).toFinset ∪
        (es.map (fun e => e.2.1)).toFinset ∧
      (∀ p ∈ S.nodes.map Prod.fst, S.matchesOf p = G.matchesOf p) := by
  intro es
  induction es with
  | nil =>
    intro R _ _ _ hmat
    exact ⟨R, rfl, by simp, by simp, hmat⟩
  | cons e es ih =>
    intro R hgood hpw habs hmat
    obtain ⟨hg1, hg2, hg3, hg4⟩ := hgood e (List.mem_cons_self _ _)
    have hstep := loadGraphStep_edgeLine R G e hg1 hg2 hg3 hg4
    have habs_e : ∀ f ∈ (addNodeIfAbsent (addNodeIfAbsent R e.1 (G.matchesOf e.1)) e.2.1
        (G.matchesOf e.2.1)).edges, sameEdge e.1 e.2.1 f = false := by
      intro f hf
      rw [edges_addNodeIfAbsent, edges_addNodeIfAbsent] at hf
      refine Bool.eq_false_iff.mpr (fun hs => ?_)
      exact habs e (List.mem_cons_self _ _) f hf ((sameEdge_iff_key _ _ f).mp hs)
    have hsetE : setEdge e.1 e.2.1 e.2.2 (addNodeIfAbsent (addNodeIfAbsent R e.1
        (G.matchesOf e.1)) e.2.1 (G.matchesOf e.2.1)).edges =
        (addNodeIfAbsent (addNodeIfAbsent R e.1 (G.matchesOf e.1)) e.2.1
          (G.matchesOf e.2.1)).edges ++ [e] :=
      setEdge_of_absent _ _ _ _ habs_e
    have hR2edges : ({ addNodeIfAbsent (addNodeIfAbsent R e.1 (G.matchesOf e.1)) e.2.1
        (G.matchesOf e.2.1) with
        edges := setEdge e.1 e.2.1 e.2.2 (addNodeIfAbsent (addNodeIfAbsent R e.1
          (G.matchesOf e.1)) e.2.1 (G.matchesOf e.2.1)).edges } : Graph).edges =
        R.edges ++ [e] := by
      show setEdge e.1 e.2.1 e.2.2 _ = _
      rw [hsetE, edges_addNodeIfAbsent, edges_addNodeIfAbsent]
    have hR1mat : ∀ p ∈ (addNodeIfAbsent (addNodeIfAbsent R e.1 (G.matchesOf e.1)) e.2.1
        (G.matchesOf e.2.1)).nodes.map Prod.fst,
        (addNodeIfAbsent (addNodeIfAbsent R e.1 (G.matchesOf e.1)) e.2.1
          (G.matchesOf e.2.1)).matchesOf p = G.matchesOf p := by
      intro p hp
      by_cases hpR : p ∈ R.nodes.map Prod.fst
      · rw [matchesOf_addNodeIfAbsent_old _ _ _ _
            (names_addNodeIfAbsent_mono _ _ _ _ hpR),
          matchesOf_addNodeIfAbsent_old _ _ _ _ hpR]
        exact hmat p hpR
      · rcases names_addNodeIfAbsent_sub _ _ _ _ hp with hp1 | hp1
        · rcases names_addNodeIfAbsent_sub _ _ _ _ hp1 with hp2 | hp2
          · exact absurd hp2 hpR
          · subst hp2
            rw [matchesOf_addNodeIfAbsent_old _ _ _ _ hp1]
            rw [matchesOf_addNodeIfAbsent_new _ _ _ hpR]
        · subst hp1
          by_cases hin : e.2.1 ∈ (addNodeIfAbsent R e.1 (G.matchesOf e.1)).nodes.map Prod.fst
          · rw [matchesOf_addNodeIfAbsent_old _ _ _ _ hin]
            rcases names_addNodeIfAbsent_sub _ _ _ _ hin with hp2 | hp2
            · exact absurd hp2 hpR
            · rw [hp2]
              by_cases hR1 : e.1 ∈ R.nodes.map Prod.fst
              · rw [matchesOf_addNodeIfAbsent_old _ _ _ _ hR1]
                rw [hp2] at hpR
                exact absurd hR1 hpR
              · rw [matchesOf_addNodeIfAbsent_new _ _ _ hR1]
          · rw [matchesOf_addNodeIfAbsent_new _ _ _ hin]
    have habs2 : ∀ f ∈ es, ∀ g ∈ (R.edges ++ [e]), Graph.edgeKey g ≠ Graph.edgeKey f := by
      intro f hf g hg
      rcases List.mem_append.mp hg with hg | hg
      · exact habs f (List.mem_cons_of_mem _ hf) g hg
      · rcases List.mem_singleton.mp hg with rfl
        exact (List.pairwise_cons.mp hpw).1 f hf
    obtain ⟨S, hS1, hS2, hS3, hS4⟩ := ih
      ({ addNodeIfAbsent (addNodeIfAbsent R e.1 (G.matchesOf e.1)) e.2.1
          (G.matchesOf e.2.1) with
        edges := setEdge e.1 e.2.1 e.2.2 (addNodeIfAbsent (addNodeIfAbsent R e.1
          (G.matchesOf e.1)) e.2.1 (G.matchesOf e.2.1)).edges })
      (fun f hf => hgood f (List.mem_cons_of_mem _ hf))
      (List.pairwise_cons.mp hpw).2
      (by rw [hR2edges]; exact habs2)
      hR1mat
    refine ⟨S, ?_, ?_, ?_, hS4⟩
    · rw [List.map_cons, loadGraphAux_cons_some hstep]
      exact hS1
    · rw [hS2, hR2edges, List.append_assoc]
      rfl
    · rw [hS3]
      have hns : ({ addNodeIfAbsent (addNodeIfAbsent R e.1 (G.matchesOf e.1)) e.2.1
          (G.matchesOf e.2.1) with
          edges := setEdge e.1 e.2.1 e.2.2 (addNodeIfAbsent (addNodeIfAbsent R e.1
            (G.matchesOf e.1)) e.2.1 (G.matchesOf e.2.1)).edges } : Graph).nodeSet =
          insert e.2.1 (insert e.1 R.nodeSet) := by
        show (addNodeIfAbsent (addNodeIfAbsent R e.1 (G.matchesOf e.1)) e.2.1
          (G.matchesOf e.2.1)).nodeSet = _
        rw [nodeSet_addNodeIfAbsent, nodeSet_addNodeIfAbsent]
      rw [hns]
      simp only [List.map_cons, List.toFinset_cons, Finset.insert_union, Finset.union_insert]

end FootballGraphs

namespace FootballGraphs

/-- C7: for every pipeline graph `G = build_graph (load_data lines)` whose
player names contain neither `|` nor a newline, reloading the exported
file succeeds with the leading `#`-comment and blank header lines ignored,
and reconstructs exactly the edge list with every weight, every reloaded
node's `matches` attribute, and a node set consisting precisely of the
edge endpoints: if every node of `G` is incident to at least one edge the
node set of `G` is reconstructed exactly, while a node with no incident
edge is absent from the reloaded graph. -/
theorem save_load_round_trip (lines : List String) (G : Graph)
    (hG : G = build_graph (load_data lines))
    (hnames : ∀ p ∈ G.nodes.map Prod.fst,
      ¬ ('|' : Char) ∈ p.data ∧ ¬ ('\n' : Char) ∈ p.data) :
    ∃ R, load_graph (save_for_java G) = some R ∧
      R.edges = G.edges ∧
      (∀ p ∈ R.nodes.map Prod.fst, R.matchesOf p = G.matchesOf p) ∧
      R.nodeSet = (G.edges.map (fun e => e.1)).toFinset ∪
        (G.edges.map (fun e => e.2.1)).toFinset ∧
      ((∀ p ∈ G.nodes.map Prod.fst, ∃ e ∈ G.edges, p = e.1 ∨ p = e.2.1) →
        R.nodeSet = G.nodeSet) ∧
      (∀ p, (¬ ∃ e ∈ G.edges, p = e.1 ∨ p = e.2.1) → ¬ p ∈ R.nodeSet) := by
  subst hG
  have htrim : ∀ p ∈ (build_graph (load_data lines)).nodes.map Prod.fst,
      stripChars p.data = p.data := by
    intro p hp
    obtain ⟨n, hn, hpn⟩ := List.mem_map.mp hp
    obtain ⟨r, hr, hpr⟩ := build_graph_node_origin _ n hn
    subst hpn
    exact load_data_trimmed lines r hr n.1 hpr
  have hgoodE : ∀ e ∈ (build_graph (load_data lines)).edges,
      stripChars e.1.data = e.1.data ∧ stripChars e.2.1.data = e.2.1.data ∧
      ¬ ('|' : Char) ∈ e.1.data ∧ ¬ ('|' : Char) ∈ e.2.1.data := by
    intro e he
    obtain ⟨h1, h2⟩ := build_graph_endpoints _ e he
    exact ⟨htrim _ h1, htrim _ h2, (hnames _ h1).1, (hnames _ h2).1⟩
  obtain ⟨S, hS1, hS2, hS3, hS4⟩ := loadGraphAux_edgeLines (build_graph (load_data lines))
    (build_graph (load_data lines)).edges ⟨[], []⟩ hgoodE
    (build_graph_keys_nodup _)
    (fun e _ f hf => absurd hf (List.not_mem_nil f))
    (fun p hp => absurd hp (List.not_mem_nil p))
  have h0 : (⟨[], []⟩ : Graph).nodeSet = ∅ := rfl
  have hload : load_graph (save_for_java (build_graph (load_data lines))) = some S := by
    rw [load_graph, save_for_java]
    rw [loadGraphAux_append_some (headers_skip ⟨[], []⟩ _ _)]
    exact hS1
  refine ⟨S, hload, hS2.trans (List.nil_append _), hS4, ?_, ?_, ?_⟩
  · rw [hS3, h0, Finset.empty_union]
  · intro hall
    rw [hS3, h0, Finset.empty_union]
    ext x
    simp only [Finset.mem_union, List.mem_toFinset, List.mem_map, Graph.nodeSet]
    constructor
    · rintro (⟨e, he, hxe⟩ | ⟨e, he, hxe⟩)
      · subst hxe
        exact List.mem_map.mp (build_graph_endpoints _ e he).1
      · subst hxe
        exact List.mem_map.mp (build_graph_endpoints _ e he).2
    · rintro ⟨n, hn, hxn⟩
      have hxmem : x ∈ (build_graph (load_data lines)).nodes.map Prod.fst :=
        List.mem_map.mpr ⟨n, hn, hxn⟩
      obtain ⟨e, he, hx⟩ := hall x hxmem
      rcases hx with hx | hx
      · exact Or.inl ⟨e, he, hx.symm⟩
      · exact Or.inr ⟨e, he, hx.symm⟩
  · intro p hno hp
    rw [hS3, h0, Finset.empty_union] at hp
    rcases Finset.mem_union.mp hp with hp | hp
    · obtain ⟨e, he, hpe⟩ := List.mem_map.mp (List.mem_toFinset.mp hp)
      exact hno ⟨e, he, Or.inl hpe.symm⟩
    · obtain ⟨e, he, hpe⟩ := List.mem_map.mp (List.mem_toFinset.mp hp)
      exact hno ⟨e, he, Or.inr hpe.symm⟩

/-- Witness for C7 on a concrete two-player input: the exported file of
its pipeline graph reloads to a graph with the same edge list, matches
attributes and node set. -/
theorem save_load_round_trip_witness :
    ∃ R, load_graph (save_for_java (build_graph (load_data
        ["MATCH: 1 | 2024-01-01 | Rival", "PLAYERS: A, B"]))) = some R ∧
      R.edges = (build_graph (load_data
        ["MATCH: 1 | 2024-01-01 | Rival", "PLAYERS: A, B"])).edges ∧
      (∀ p ∈ R.nodes.map Prod.fst, R.matchesOf p =
        (build_graph (load_data
          ["MATCH: 1 | 2024-01-01 | Rival", "PLAYERS: A, B"])).matchesOf p) ∧
      R.nodeSet = ((build_graph (load_data
          ["MATCH: 1 | 2024-01-01 | Rival", "PLAYERS: A, B"])).edges.map
            (fun e => e.1)).toFinset ∪
        ((build_graph (load_data
          ["MATCH: 1 | 2024-01-01 | Rival", "PLAYERS: A, B"])).edges.map
            (fun e => e.2.1)).toFinset ∧
      ((∀ p ∈ (build_graph (load_data
          ["MATCH: 1 | 2024-01-01 | Rival", "PLAYERS: A, B"])).nodes.map Prod.fst,
          ∃ e ∈ (build_graph (load_data
            ["MATCH: 1 | 2024-01-01 | Rival", "PLAYERS: A, B"])).edges,
            p = e.1 ∨ p = e.2.1) →
        R.nodeSet = (build_graph (load_data
          ["MATCH: 1 | 2024-01-01 | Rival", "PLAYERS: A, B"])).nodeSet) ∧
      (∀ p, (¬ ∃ e ∈ (build_graph (load_data
          ["MATCH: 1 | 2024-01-01 | Rival", "PLAYERS: A, B"])).edges,
          p = e.1 ∨ p = e.2.1) → ¬ p ∈ R.nodeSet) :=
  save_load_round_trip ["MATCH: 1 | 2024-01-01 | Rival", "PLAYERS: A, B"] _ rfl (by decide)

end FootballGraphs
